import Mathlib

/-!
Verification of the Portfolio Optimization Engine (efficient-frontier service).

The Go source is embedded shallowly over the real numbers: `float64` values
become `ℝ` (exact real arithmetic), Go's `±Inf` sentinel floats become `EReal`,
Go slices become `List ℝ`, and the fixed-seed random generator becomes an
explicit stream `ℕ → ℝ` of draws (the values produced by `rng.ExpFloat64()`).
Loops are folds; an early `return nil` is an `Option` state.

The repository contains three successive optimizer variants; they share
`PortfolioStats` / `randomWeights` verbatim and differ in the frontier
extractor.  The sample-filter extractor (`computeFrontierLineFromSimulations`)
is embedded in namespace `SampleFilter` together with the final
`RunMonteCarlo`; the two gradient-projection sweeps are embedded in
namespaces `GradV1` and `GradV2`.
-/

open Classical

namespace Frontier

/-- Go's `math.Round` (round half away from zero). -/
noncomputable def goRound (x : ℝ) : ℤ :=
  if x < 0 then -⌊-x + 1/2⌋ else ⌊x + 1/2⌋

/-- The `mean` helper: arithmetic mean of a slice (`sum / float64(len)`). -/
noncomputable def mean (xs : List ℝ) : ℝ :=
  xs.foldl (· + ·) 0 / (xs.length : ℝ)

/-- Accumulation loop for the portfolio return in `PortfolioStats`:
`for i := 0; i < n; i++ { ret += weights[i] * meanReturns[i] }`. -/
def portfolioRet (weights meanReturns : List ℝ) : ℝ :=
  (List.range weights.length).foldl
    (fun acc i => acc + weights.getD i 0 * meanReturns.getD i 0) 0

/-- Accumulation loops for the portfolio variance in `PortfolioStats`
(single accumulator threaded through the nested `i`/`j` loops). -/
def portfolioVariance (weights : List ℝ) (covMatrix : List (List ℝ)) : ℝ :=
  (List.range weights.length).foldl
    (fun acc i => (List.range weights.length).foldl
      (fun acc2 j =>
        acc2 + weights.getD i 0 * weights.getD j 0 * (covMatrix.getD i []).getD j 0)
      acc) 0

/-- `PortfolioStats` from the source: portfolio return, volatility and the
Sharpe value for given weights, with the zero-volatility convention
(`sharpe` keeps its zero initialization unless `vol > 0`). -/
noncomputable def PortfolioStats (weights meanReturns : List ℝ)
    (covMatrix : List (List ℝ)) (riskFreeRate : ℝ) : ℝ × ℝ × ℝ :=
  let ret := portfolioRet weights meanReturns
  let variance := portfolioVariance weights covMatrix
  let vol := Real.sqrt variance
  let sharpe := if vol > 0 then (ret - riskFreeRate) / vol else 0
  (ret, vol, sharpe)

theorem PortfolioStats_def (w μ : List ℝ) (C : List (List ℝ)) (rf : ℝ) :
    PortfolioStats w μ C rf
      = (portfolioRet w μ, Real.sqrt (portfolioVariance w C),
          if Real.sqrt (portfolioVariance w C) > 0 then
            (portfolioRet w μ - rf) / Real.sqrt (portfolioVariance w C)
          else 0) := rfl

/-- `randomWeights`: draw `n` exponential samples and normalize by their sum.
`draw k` is the value returned by the `k`-th call to `rng.ExpFloat64()`. -/
noncomputable def randomWeights (n : ℕ) (draw : ℕ → ℝ) : List ℝ :=
  let w := (List.range n).map draw
  let sum := w.foldl (· + ·) 0
  w.map (· / sum)

/-! Helper lemmas relating the loop-shaped folds to `Finset` sums. -/

theorem foldl_add_eq_sum (f : ℕ → ℝ) (a : ℝ) (n : ℕ) :
    (List.range n).foldl (fun acc i => acc + f i) a
      = a + ∑ i ∈ Finset.range n, f i := by
  induction n with
  | zero => simp
  | succ m ih =>
      rw [List.range_succ, List.foldl_append, Finset.sum_range_succ, ih]
      simp [add_assoc]

theorem foldl_fun_congr {α β : Type*} (f g : α → β → α)
    (h : ∀ a b, f a b = g a b) : ∀ (l : List β) (a : α), l.foldl f a = l.foldl g a := by
  intro l
  induction l with
  | nil => intro a; rfl
  | cons x xs ih => intro a; simp only [List.foldl_cons, h, ih]

theorem portfolioRet_eq_sum (w μ : List ℝ) :
    portfolioRet w μ = ∑ i ∈ Finset.range w.length, w.getD i 0 * μ.getD i 0 := by
  unfold portfolioRet
  rw [foldl_add_eq_sum (fun i => w.getD i 0 * μ.getD i 0) 0 w.length]
  simp

theorem portfolioVariance_eq_sum (w : List ℝ) (C : List (List ℝ)) :
    portfolioVariance w C
      = ∑ i ∈ Finset.range w.length, ∑ j ∈ Finset.range w.length,
          w.getD i 0 * w.getD j 0 * (C.getD i []).getD j 0 := by
  unfold portfolioVariance
  rw [foldl_fun_congr _
    (fun acc i => acc + ∑ j ∈ Finset.range w.length,
      w.getD i 0 * w.getD j 0 * (C.getD i []).getD j 0)
    (fun acc i => foldl_add_eq_sum _ acc _)]
  rw [foldl_add_eq_sum (fun i => ∑ j ∈ Finset.range w.length,
      w.getD i 0 * w.getD j 0 * (C.getD i []).getD j 0) 0 w.length]
  simp

end Frontier

namespace Frontier

/-! Claim C1: the Portfolio Scorer. -/

theorem scenario_ret :
    portfolioRet [0.5, 0.5] [0.10, 0.20] = 0.15 := by
  have h2 : List.range 2 = [0, 1] := rfl
  simp [portfolioRet, h2]
  norm_num

theorem scenario_variance :
    portfolioVariance [0.5, 0.5] [[0.04, 0.01], [0.01, 0.09]] = 0.0375 := by
  have h2 : List.range 2 = [0, 1] := rfl
  simp [portfolioVariance, h2]
  norm_num

/-- C1: for every weight vector, mean-return vector, covariance matrix and
risk-free rate, `PortfolioStats` returns the dot-product return, the square
root of the full quadratic form as volatility, and the excess-return ratio as
Sharpe when the volatility is positive (zero when the volatility is zero);
on the reference scenario it returns return `0.15`, volatility
`sqrt 0.0375` and Sharpe within `1/1000` of `0.5164`. -/
theorem portfolioStats_spec :
    (∀ (w μ : List ℝ) (C : List (List ℝ)) (rf : ℝ),
      (PortfolioStats w μ C rf).1
          = ∑ i ∈ Finset.range w.length, w.getD i 0 * μ.getD i 0 ∧
      (PortfolioStats w μ C rf).2.1
          = Real.sqrt (∑ i ∈ Finset.range w.length, ∑ j ∈ Finset.range w.length,
              w.getD i 0 * w.getD j 0 * (C.getD i []).getD j 0) ∧
      ((PortfolioStats w μ C rf).2.1 > 0 →
        (PortfolioStats w μ C rf).2.2
          = ((PortfolioStats w μ C rf).1 - rf) / (PortfolioStats w μ C rf).2.1) ∧
      ((PortfolioStats w μ C rf).2.1 = 0 → (PortfolioStats w μ C rf).2.2 = 0)) ∧
    (PortfolioStats [0.5, 0.5] [0.10, 0.20] [[0.04, 0.01], [0.01, 0.09]] 0.05).1
        = 0.15 ∧
    (PortfolioStats [0.5, 0.5] [0.10, 0.20] [[0.04, 0.01], [0.01, 0.09]] 0.05).2.1
        = Real.sqrt 0.0375 ∧
    |(PortfolioStats [0.5, 0.5] [0.10, 0.20] [[0.04, 0.01], [0.01, 0.09]] 0.05).2.2
        - 0.5164| < 1/1000 := by
  have hret : ∀ (w μ : List ℝ) (C : List (List ℝ)) (rf : ℝ),
      (PortfolioStats w μ C rf).1 = portfolioRet w μ := fun w μ C rf => rfl
  have hvol : ∀ (w μ : List ℝ) (C : List (List ℝ)) (rf : ℝ),
      (PortfolioStats w μ C rf).2.1 = Real.sqrt (portfolioVariance w C) :=
    fun w μ C rf => rfl
  have hsh : ∀ (w μ : List ℝ) (C : List (List ℝ)) (rf : ℝ),
      (PortfolioStats w μ C rf).2.2
        = if Real.sqrt (portfolioVariance w C) > 0 then
            (portfolioRet w μ - rf) / Real.sqrt (portfolioVariance w C) else 0 :=
    fun w μ C rf => rfl
  refine ⟨fun w μ C rf => ⟨?_, ?_, ?_, ?_⟩, ?_, ?_, ?_⟩
  · rw [hret, portfolioRet_eq_sum]
  · rw [hvol, portfolioVariance_eq_sum]
  · intro hpos
    rw [hsh, if_pos (by rw [hvol] at hpos; exact hpos), hret, hvol]
  · intro hzero
    rw [hvol] at hzero
    rw [hsh, if_neg (by rw [hzero]; exact lt_irrefl 0)]
  · rw [hret, scenario_ret]
  · rw [hvol, scenario_variance]
  · rw [hsh, scenario_ret, scenario_variance]
    have hv : (0:ℝ) < Real.sqrt 0.0375 := Real.sqrt_pos.mpr (by norm_num)
    rw [if_pos hv]
    have h1 : (0.1936 : ℝ) < Real.sqrt 0.0375 :=
      (Real.lt_sqrt (by norm_num)).mpr (by norm_num)
    have h2 : Real.sqrt 0.0375 < 0.1937 :=
      (Real.sqrt_lt' (by norm_num)).mpr (by norm_num)
    have h4 : (0.15 - 0.05 : ℝ) / 0.1937 < (0.15 - 0.05 : ℝ) / Real.sqrt 0.0375 :=
      div_lt_div_of_pos_left (by norm_num) hv h2
    have h5 : (0.15 - 0.05 : ℝ) / Real.sqrt 0.0375 < (0.15 - 0.05 : ℝ) / 0.1936 :=
      div_lt_div_of_pos_left (by norm_num) (by norm_num) h1
    have h4' : (0.51626 : ℝ) < (0.15 - 0.05 : ℝ) / Real.sqrt 0.0375 := by
      refine lt_trans ?_ h4
      norm_num
    have h5' : (0.15 - 0.05 : ℝ) / Real.sqrt 0.0375 < (0.51653 : ℝ) := by
      refine lt_trans h5 ?_
      norm_num
    rw [abs_lt]
    constructor
    · linarith
    · linarith

end Frontier

namespace Frontier

/-- Witness for C1: on the reference scenario the volatility hypothesis of the
Sharpe clause holds and the Sharpe value is the excess-return ratio. -/
theorem portfolioStats_spec_witness :
    (PortfolioStats [0.5, 0.5] [0.10, 0.20] [[0.04, 0.01], [0.01, 0.09]] 0.05).2.1 > 0 ∧
    (PortfolioStats [0.5, 0.5] [0.10, 0.20] [[0.04, 0.01], [0.01, 0.09]] 0.05).2.2
      = ((PortfolioStats [0.5, 0.5] [0.10, 0.20] [[0.04, 0.01], [0.01, 0.09]] 0.05).1 - 0.05)
        / (PortfolioStats [0.5, 0.5] [0.10, 0.20] [[0.04, 0.01], [0.01, 0.09]] 0.05).2.1 := by
  have hpos : (PortfolioStats [0.5, 0.5] [0.10, 0.20] [[0.04, 0.01], [0.01, 0.09]] 0.05).2.1 > 0 := by
    rw [portfolioStats_spec.2.2.1]
    exact Real.sqrt_pos.mpr (by norm_num)
  exact ⟨hpos,
    (portfolioStats_spec.1 [0.5, 0.5] [0.10, 0.20] [[0.04, 0.01], [0.01, 0.09]] 0.05).2.2.1 hpos⟩

/-! The data model of the optimizer: one record per simulated portfolio and one
per frontier point, mirroring the Go structs.  `Risk`/`Sharpe` live in `EReal`
because the Go code initializes its running best records with
`math.Inf(-1)` / `math.Inf(1)`; a `weights` value of `[]` models a nil slice. -/

/-- `SimulatedPortfolio` struct: weights, return, risk (volatility), Sharpe. -/
structure SimulatedPortfolio where
  weights : List ℝ
  ret : ℝ
  risk : EReal
  sharpe : EReal

/-- `FrontierPoint` struct: a point on the efficient frontier line. -/
structure FrontierPoint where
  ret : ℝ
  risk : EReal
  weights : List ℝ

/-- `OptimizationResult` struct: everything returned to the client. -/
structure OptimizationResult where
  monteCarloPoints : List SimulatedPortfolio
  frontierPoints : List FrontierPoint
  maxSharpe : SimulatedPortfolio
  minVariance : SimulatedPortfolio

/-- Sentinel initialization `SimulatedPortfolio{Sharpe: math.Inf(-1)}` for the
running max-Sharpe record (all other fields are Go zero values). -/
def maxSharpeInit : SimulatedPortfolio := ⟨[], 0, ((0:ℝ) : EReal), ⊥⟩

/-- Sentinel initialization `SimulatedPortfolio{Risk: math.Inf(1)}` for the
running min-variance record (all other fields are Go zero values). -/
def minVarInit : SimulatedPortfolio := ⟨[], 0, ⊤, ((0:ℝ) : EReal)⟩

namespace SampleFilter

/-- The comparison function passed to `sort.Slice`: order by risk ascending,
with return ascending as the tie-break. -/
def simLess (p q : SimulatedPortfolio) : Prop :=
  if p.risk = q.risk then p.ret < q.ret else p.risk < q.risk

/-- The order the sorted slice satisfies: position `i` before position `j`
exactly when `simLess q p` fails (how `sort.Slice` leaves the slice). -/
def simLE (p q : SimulatedPortfolio) : Prop := ¬ simLess q p

/-- One step of the non-dominated scan: keep the running best return and emit
a `FrontierPoint` only when the sample's return strictly exceeds it. -/
noncomputable def frontierScanStep (st : EReal × List FrontierPoint)
    (p : SimulatedPortfolio) : EReal × List FrontierPoint :=
  if (p.ret : EReal) > st.1 then
    ((p.ret : EReal), st.2 ++ [⟨p.ret, p.risk, p.weights⟩])
  else st

/-- The sorted-and-filtered non-dominated front of the sample cloud (the
`sorted`/`efficient` stage of `computeFrontierLineFromSimulations`). -/
noncomputable def efficientFront (sims : List SimulatedPortfolio) : List FrontierPoint :=
  ((List.insertionSort simLE sims).foldl frontierScanStep (⊥, [])).2

/-- The even-stride resampling index: `int(math.Round(float64(i) * step))`,
clamped to the last index (`if idx >= len { idx = len - 1 }`). -/
noncomputable def resampleIdx (lenE : ℕ) (maxPoints : ℤ) (i : ℕ) : ℤ :=
  let step : ℝ := ((lenE : ℝ) - 1) / ((maxPoints : ℝ) - 1)
  let idx := goRound ((i : ℝ) * step)
  if idx ≥ (lenE : ℤ) then (lenE : ℤ) - 1 else idx

/-- `computeFrontierLineFromSimulations`: sort the samples by risk, keep the
non-dominated front, and resample it down to `maxPoints` points by even index
stride when it is longer than the budget. -/
noncomputable def computeFrontierLineFromSimulations
    (sims : List SimulatedPortfolio) (maxPoints : ℤ) : List FrontierPoint :=
  if sims = [] then [] else
  let efficient := efficientFront sims
  if (efficient.length : ℤ) ≤ maxPoints then efficient else
  (List.range maxPoints.toNat).map
    (fun i => efficient.getD (resampleIdx efficient.length maxPoints i).toNat ⟨0, 0, []⟩)

/-- One iteration of the Monte Carlo loop: draw weights, score them, append
the sample and update the two running best records. -/
noncomputable def mcStep (meanReturns : List ℝ) (covMatrix : List (List ℝ))
    (riskFreeRate : ℝ) (stream : ℕ → ℝ)
    (st : List SimulatedPortfolio × SimulatedPortfolio × SimulatedPortfolio)
    (s : ℕ) : List SimulatedPortfolio × SimulatedPortfolio × SimulatedPortfolio :=
  let n := meanReturns.length
  let w := randomWeights n (fun i => stream (s * n + i))
  let r := PortfolioStats w meanReturns covMatrix riskFreeRate
  let sp : SimulatedPortfolio := ⟨w, r.1, (r.2.1 : EReal), (r.2.2 : EReal)⟩
  let sims := st.1 ++ [sp]
  let maxS := if sp.sharpe > st.2.1.sharpe then sp else st.2.1
  let minV := if sp.risk < st.2.2.risk then sp else st.2.2
  (sims, maxS, minV)

/-- `RunMonteCarlo` (final variant): simulate `numSims` random portfolios,
track the running max-Sharpe and min-variance portfolios, and derive the
frontier from the sample cloud. -/
noncomputable def RunMonteCarlo (stream : ℕ → ℝ) (meanReturns : List ℝ)
    (covMatrix : List (List ℝ)) (numSims : ℤ) (riskFreeRate : ℝ) :
    OptimizationResult :=
  let st := (List.range numSims.toNat).foldl
    (mcStep meanReturns covMatrix riskFreeRate stream) ([], maxSharpeInit, minVarInit)
  let frontier := computeFrontierLineFromSimulations st.1 60
  ⟨st.1, frontier, st.2.1, st.2.2⟩

end SampleFilter

end Frontier

namespace Frontier

instance : Inhabited SimulatedPortfolio := ⟨⟨[], 0, 0, 0⟩⟩

instance : Inhabited FrontierPoint := ⟨⟨0, 0, []⟩⟩

namespace SampleFilter

/-- The sample produced by loop iteration `s` of the Monte Carlo loop. -/
noncomputable def mcSample (meanReturns : List ℝ) (covMatrix : List (List ℝ))
    (riskFreeRate : ℝ) (stream : ℕ → ℝ) (s : ℕ) : SimulatedPortfolio :=
  let n := meanReturns.length
  let w := randomWeights n (fun i => stream (s * n + i))
  let r := PortfolioStats w meanReturns covMatrix riskFreeRate
  ⟨w, r.1, (r.2.1 : EReal), (r.2.2 : EReal)⟩

theorem mcStep_eq (meanReturns : List ℝ) (covMatrix : List (List ℝ))
    (riskFreeRate : ℝ) (stream : ℕ → ℝ)
    (st : List SimulatedPortfolio × SimulatedPortfolio × SimulatedPortfolio) (s : ℕ) :
    mcStep meanReturns covMatrix riskFreeRate stream st s
      = (st.1 ++ [mcSample meanReturns covMatrix riskFreeRate stream s],
         (if (mcSample meanReturns covMatrix riskFreeRate stream s).sharpe > st.2.1.sharpe
          then mcSample meanReturns covMatrix riskFreeRate stream s else st.2.1),
         (if (mcSample meanReturns covMatrix riskFreeRate stream s).risk < st.2.2.risk
          then mcSample meanReturns covMatrix riskFreeRate stream s else st.2.2)) := rfl

theorem mcFold_fst (meanReturns : List ℝ) (covMatrix : List (List ℝ))
    (riskFreeRate : ℝ) (stream : ℕ → ℝ) :
    ∀ (l : List ℕ) (st : List SimulatedPortfolio × SimulatedPortfolio × SimulatedPortfolio),
    (l.foldl (mcStep meanReturns covMatrix riskFreeRate stream) st).1
      = st.1 ++ l.map (mcSample meanReturns covMatrix riskFreeRate stream) := by
  intro l
  induction l with
  | nil => intro st; simp
  | cons s t ih =>
      intro st
      rw [List.foldl_cons, ih, List.map_cons, mcStep_eq]
      simp

theorem mcFold_max (meanReturns : List ℝ) (covMatrix : List (List ℝ))
    (riskFreeRate : ℝ) (stream : ℕ → ℝ) :
    ∀ (l : List ℕ) (st : List SimulatedPortfolio × SimulatedPortfolio × SimulatedPortfolio),
    (l.foldl (mcStep meanReturns covMatrix riskFreeRate stream) st).2.1
      = (l.map (mcSample meanReturns covMatrix riskFreeRate stream)).foldl
          (fun best sp => if sp.sharpe > best.sharpe then sp else best) st.2.1 := by
  intro l
  induction l with
  | nil => intro st; simp
  | cons s t ih =>
      intro st
      rw [List.foldl_cons, ih, List.map_cons, List.foldl_cons, mcStep_eq]

theorem mcFold_min (meanReturns : List ℝ) (covMatrix : List (List ℝ))
    (riskFreeRate : ℝ) (stream : ℕ → ℝ) :
    ∀ (l : List ℕ) (st : List SimulatedPortfolio × SimulatedPortfolio × SimulatedPortfolio),
    (l.foldl (mcStep meanReturns covMatrix riskFreeRate stream) st).2.2
      = (l.map (mcSample meanReturns covMatrix riskFreeRate stream)).foldl
          (fun best sp => if sp.risk < best.risk then sp else best) st.2.2 := by
  intro l
  induction l with
  | nil => intro st; simp
  | cons s t ih =>
      intro st
      rw [List.foldl_cons, ih, List.map_cons, List.foldl_cons, mcStep_eq]

/-- Characterization of the running-max fold with the strictly-greater update:
either no sample beats the accumulator, or the result is the first sample
achieving the maximum Sharpe value. -/
theorem foldBestSharpe_spec :
    ∀ (l : List SimulatedPortfolio) (acc : SimulatedPortfolio),
    (l.foldl (fun best sp => if sp.sharpe > best.sharpe then sp else best) acc = acc
      ∧ ∀ j, j < l.length → (l.getD j default).sharpe ≤ acc.sharpe)
    ∨ (∃ i, i < l.length ∧
        l.foldl (fun best sp => if sp.sharpe > best.sharpe then sp else best) acc
          = l.getD i default
        ∧ acc.sharpe < (l.getD i default).sharpe
        ∧ (∀ j, j < i → (l.getD j default).sharpe < (l.getD i default).sharpe)
        ∧ (∀ j, j < l.length → (l.getD j default).sharpe ≤ (l.getD i default).sharpe)) := by
  intro l
  induction l with
  | nil => intro acc; exact Or.inl ⟨rfl, by intro j hj; simp at hj⟩
  | cons p t ih =>
      intro acc
      rw [List.foldl_cons]
      by_cases hpa : p.sharpe > acc.sharpe
      · rw [if_pos hpa]
        rcases ih p with ⟨heq, hall⟩ | ⟨i, hi, heq, hgt, hpre, hall⟩
        · refine Or.inr ⟨0, by simp, by simpa using heq, by simpa using hpa, ?_, ?_⟩
          · intro j hj; omega
          · intro j hj
            match j with
            | 0 => simp
            | Nat.succ k =>
                have hk : k < t.length := by simpa using hj
                simpa using hall k hk
        · refine Or.inr ⟨i + 1, by simpa using hi, by simpa using heq, ?_, ?_, ?_⟩
          · simpa using lt_trans hpa hgt
          · intro j hj
            match j with
            | 0 => simpa using hgt
            | Nat.succ k =>
                have hk : k < i := by omega
                simpa using hpre k hk
          · intro j hj
            match j with
            | 0 => simpa using le_of_lt hgt
            | Nat.succ k =>
                have hk : k < t.length := by simpa using hj
                simpa using hall k hk
      · rw [if_neg hpa]
        push_neg at hpa
        rcases ih acc with ⟨heq, hall⟩ | ⟨i, hi, heq, hgt, hpre, hall⟩
        · refine Or.inl ⟨heq, ?_⟩
          intro j hj
          match j with
          | 0 => simpa using hpa
          | Nat.succ k =>
              have hk : k < t.length := by simpa using hj
              simpa using hall k hk
        · refine Or.inr ⟨i + 1, by simpa using hi, by simpa using heq, hgt, ?_, ?_⟩
          · intro j hj
            match j with
            | 0 => exact lt_of_le_of_lt (by simpa using hpa) hgt
            | Nat.succ k =>
                have hk : k < i := by omega
                simpa using hpre k hk
          · intro j hj
            match j with
            | 0 => exact le_of_lt (lt_of_le_of_lt (by simpa using hpa) hgt)
            | Nat.succ k =>
                have hk : k < t.length := by simpa using hj
                simpa using hall k hk

/-- Characterization of the running-min fold with the strictly-lower update:
either no sample beats the accumulator, or the result is the first sample
achieving the minimum risk value. -/
theorem foldBestRisk_spec :
    ∀ (l : List SimulatedPortfolio) (acc : SimulatedPortfolio),
    (l.foldl (fun best sp => if sp.risk < best.risk then sp else best) acc = acc
      ∧ ∀ j, j < l.length → acc.risk ≤ (l.getD j default).risk)
    ∨ (∃ i, i < l.length ∧
        l.foldl (fun best sp => if sp.risk < best.risk then sp else best) acc
          = l.getD i default
        ∧ (l.getD i default).risk < acc.risk
        ∧ (∀ j, j < i → (l.getD i default).risk < (l.getD j default).risk)
        ∧ (∀ j, j < l.length → (l.getD i default).risk ≤ (l.getD j default).risk)) := by
  intro l
  induction l with
  | nil => intro acc; exact Or.inl ⟨rfl, by intro j hj; simp at hj⟩
  | cons p t ih =>
      intro acc
      rw [List.foldl_cons]
      by_cases hpa : p.risk < acc.risk
      · rw [if_pos hpa]
        rcases ih p with ⟨heq, hall⟩ | ⟨i, hi, heq, hgt, hpre, hall⟩
        · refine Or.inr ⟨0, by simp, by simpa using heq, by simpa using hpa, ?_, ?_⟩
          · intro j hj; omega
          · intro j hj
            match j with
            | 0 => simp
            | Nat.succ k =>
                have hk : k < t.length := by simpa using hj
                simpa using hall k hk
        · refine Or.inr ⟨i + 1, by simpa using hi, by simpa using heq, ?_, ?_, ?_⟩
          · simpa using lt_trans hgt hpa
          · intro j hj
            match j with
            | 0 => simpa using hgt
            | Nat.succ k =>
                have hk : k < i := by omega
                simpa using hpre k hk
          · intro j hj
            match j with
            | 0 => simpa using le_of_lt hgt
            | Nat.succ k =>
                have hk : k < t.length := by simpa using hj
                simpa using hall k hk
      · rw [if_neg hpa]
        push_neg at hpa
        rcases ih acc with ⟨heq, hall⟩ | ⟨i, hi, heq, hgt, hpre, hall⟩
        · refine Or.inl ⟨heq, ?_⟩
          intro j hj
          match j with
          | 0 => simpa using hpa
          | Nat.succ k =>
              have hk : k < t.length := by simpa using hj
              simpa using hall k hk
        · refine Or.inr ⟨i + 1, by simpa using hi, by simpa using heq, hgt, ?_, ?_⟩
          · intro j hj
            match j with
            | 0 => exact lt_of_lt_of_le hgt (by simpa using hpa)
            | Nat.succ k =>
                have hk : k < i := by omega
                simpa using hpre k hk
          · intro j hj
            match j with
            | 0 => exact le_of_lt (lt_of_lt_of_le hgt (by simpa using hpa))
            | Nat.succ k =>
                have hk : k < t.length := by simpa using hj
                simpa using hall k hk

end SampleFilter

end Frontier

namespace Frontier

namespace SampleFilter

theorem runMonteCarlo_points (stream : ℕ → ℝ) (μ : List ℝ) (C : List (List ℝ))
    (S : ℤ) (rf : ℝ) :
    (RunMonteCarlo stream μ C S rf).monteCarloPoints
      = (List.range S.toNat).map (mcSample μ C rf stream) := by
  have h : (RunMonteCarlo stream μ C S rf).monteCarloPoints
      = ((List.range S.toNat).foldl (mcStep μ C rf stream)
          ([], maxSharpeInit, minVarInit)).1 := rfl
  rw [h, mcFold_fst]
  simp

theorem runMonteCarlo_max (stream : ℕ → ℝ) (μ : List ℝ) (C : List (List ℝ))
    (S : ℤ) (rf : ℝ) :
    (RunMonteCarlo stream μ C S rf).maxSharpe
      = ((List.range S.toNat).map (mcSample μ C rf stream)).foldl
          (fun best sp => if sp.sharpe > best.sharpe then sp else best) maxSharpeInit := by
  have h : (RunMonteCarlo stream μ C S rf).maxSharpe
      = ((List.range S.toNat).foldl (mcStep μ C rf stream)
          ([], maxSharpeInit, minVarInit)).2.1 := rfl
  rw [h, mcFold_max]

theorem runMonteCarlo_min (stream : ℕ → ℝ) (μ : List ℝ) (C : List (List ℝ))
    (S : ℤ) (rf : ℝ) :
    (RunMonteCarlo stream μ C S rf).minVariance
      = ((List.range S.toNat).map (mcSample μ C rf stream)).foldl
          (fun best sp => if sp.risk < best.risk then sp else best) minVarInit := by
  have h : (RunMonteCarlo stream μ C S rf).minVariance
      = ((List.range S.toNat).foldl (mcStep μ C rf stream)
          ([], maxSharpeInit, minVarInit)).2.2 := rfl
  rw [h, mcFold_min]

theorem mcSample_sharpe_ne_bot (μ : List ℝ) (C : List (List ℝ)) (rf : ℝ)
    (stream : ℕ → ℝ) (s : ℕ) : (mcSample μ C rf stream s).sharpe ≠ ⊥ := by
  unfold mcSample
  exact EReal.coe_ne_bot _

theorem mcSample_risk_ne_top (μ : List ℝ) (C : List (List ℝ)) (rf : ℝ)
    (stream : ℕ → ℝ) (s : ℕ) : (mcSample μ C rf stream s).risk ≠ ⊤ := by
  unfold mcSample
  exact EReal.coe_ne_top _

/-- C2: with `S ≥ 1` simulations, `RunMonteCarlo` returns exactly `S` sample
portfolios; the reported max-Sharpe portfolio is the first sample attaining
the maximum Sharpe value (every earlier sample is strictly below it, every
sample is at most it), and the reported min-variance portfolio is the first
sample attaining the minimum risk. -/
theorem runMonteCarlo_spec (stream : ℕ → ℝ) (μ : List ℝ) (C : List (List ℝ))
    (rf : ℝ) (S : ℤ) (hS : 1 ≤ S) :
    (((RunMonteCarlo stream μ C S rf).monteCarloPoints.length : ℤ) = S) ∧
    (∃ i, i < (RunMonteCarlo stream μ C S rf).monteCarloPoints.length ∧
      (RunMonteCarlo stream μ C S rf).maxSharpe
        = (RunMonteCarlo stream μ C S rf).monteCarloPoints.getD i default ∧
      (∀ j, j < i →
        ((RunMonteCarlo stream μ C S rf).monteCarloPoints.getD j default).sharpe
          < (RunMonteCarlo stream μ C S rf).maxSharpe.sharpe) ∧
      (∀ j, j < (RunMonteCarlo stream μ C S rf).monteCarloPoints.length →
        ((RunMonteCarlo stream μ C S rf).monteCarloPoints.getD j default).sharpe
          ≤ (RunMonteCarlo stream μ C S rf).maxSharpe.sharpe)) ∧
    (∃ i, i < (RunMonteCarlo stream μ C S rf).monteCarloPoints.length ∧
      (RunMonteCarlo stream μ C S rf).minVariance
        = (RunMonteCarlo stream μ C S rf).monteCarloPoints.getD i default ∧
      (∀ j, j < i →
        (RunMonteCarlo stream μ C S rf).minVariance.risk
          < ((RunMonteCarlo stream μ C S rf).monteCarloPoints.getD j default).risk) ∧
      (∀ j, j < (RunMonteCarlo stream μ C S rf).monteCarloPoints.length →
        (RunMonteCarlo stream μ C S rf).minVariance.risk
          ≤ ((RunMonteCarlo stream μ C S rf).monteCarloPoints.getD j default).risk)) := by
  have hlen0 : 0 < S.toNat := by omega
  have hpoints := runMonteCarlo_points stream μ C S rf
  have hlen : (RunMonteCarlo stream μ C S rf).monteCarloPoints.length = S.toNat := by
    rw [hpoints]; simp
  refine ⟨?_, ?_, ?_⟩
  · rw [hlen]; omega
  · rcases foldBestSharpe_spec ((List.range S.toNat).map (mcSample μ C rf stream))
        maxSharpeInit with ⟨heq, hall⟩ | ⟨i, hi, heq, _, hpre, hall⟩
    · exfalso
      have h0 : 0 < ((List.range S.toNat).map (mcSample μ C rf stream)).length := by
        simpa using hlen0
      have hle := hall 0 h0
      rw [List.getD_eq_getElem _ _ h0] at hle
      simp only [List.getElem_map, List.getElem_range] at hle
      have : (mcSample μ C rf stream 0).sharpe = ⊥ := le_bot_iff.mp hle
      exact mcSample_sharpe_ne_bot μ C rf stream 0 this
    · refine ⟨i, ?_, ?_, ?_, ?_⟩
      · rw [hlen]; simpa using hi
      · rw [runMonteCarlo_max, heq, hpoints]
      · intro j hj
        rw [runMonteCarlo_max, heq, hpoints]
        exact hpre j hj
      · intro j hj
        rw [runMonteCarlo_max, heq, hpoints]
        apply hall
        rw [hlen] at hj; simpa using hj
  · rcases foldBestRisk_spec ((List.range S.toNat).map (mcSample μ C rf stream))
        minVarInit with ⟨heq, hall⟩ | ⟨i, hi, heq, _, hpre, hall⟩
    · exfalso
      have h0 : 0 < ((List.range S.toNat).map (mcSample μ C rf stream)).length := by
        simpa using hlen0
      have hle := hall 0 h0
      rw [List.getD_eq_getElem _ _ h0] at hle
      simp only [List.getElem_map, List.getElem_range] at hle
      have htop : (mcSample μ C rf stream 0).risk = ⊤ := top_le_iff.mp hle
      exact mcSample_risk_ne_top μ C rf stream 0 htop
    · refine ⟨i, ?_, ?_, ?_, ?_⟩
      · rw [hlen]; simpa using hi
      · rw [runMonteCarlo_min, heq, hpoints]
      · intro j hj
        rw [runMonteCarlo_min, heq, hpoints]
        exact hpre j hj
      · intro j hj
        rw [runMonteCarlo_min, heq, hpoints]
        apply hall
        rw [hlen] at hj; simpa using hj

/-- Witness for C2 at a concrete input: one simulation on a one-asset
universe with the constant draw stream. -/
theorem runMonteCarlo_spec_witness :
    (1 : ℤ) ≤ 1 ∧
    ((((RunMonteCarlo (fun _ => 1) [0.1] [[0.04]] 1 0.02).monteCarloPoints.length : ℤ) = 1) ∧
    (∃ i, i < (RunMonteCarlo (fun _ => 1) [0.1] [[0.04]] 1 0.02).monteCarloPoints.length ∧
      (RunMonteCarlo (fun _ => 1) [0.1] [[0.04]] 1 0.02).maxSharpe
        = (RunMonteCarlo (fun _ => 1) [0.1] [[0.04]] 1 0.02).monteCarloPoints.getD i default ∧
      (∀ j, j < i →
        (((RunMonteCarlo (fun _ => 1) [0.1] [[0.04]] 1 0.02).monteCarloPoints.getD j default).sharpe
          < (RunMonteCarlo (fun _ => 1) [0.1] [[0.04]] 1 0.02).maxSharpe.sharpe)) ∧
      (∀ j, j < (RunMonteCarlo (fun _ => 1) [0.1] [[0.04]] 1 0.02).monteCarloPoints.length →
        (((RunMonteCarlo (fun _ => 1) [0.1] [[0.04]] 1 0.02).monteCarloPoints.getD j default).sharpe
          ≤ (RunMonteCarlo (fun _ => 1) [0.1] [[0.04]] 1 0.02).maxSharpe.sharpe))) ∧
    (∃ i, i < (RunMonteCarlo (fun _ => 1) [0.1] [[0.04]] 1 0.02).monteCarloPoints.length ∧
      (RunMonteCarlo (fun _ => 1) [0.1] [[0.04]] 1 0.02).minVariance
        = (RunMonteCarlo (fun _ => 1) [0.1] [[0.04]] 1 0.02).monteCarloPoints.getD i default ∧
      (∀ j, j < i →
        ((RunMonteCarlo (fun _ => 1) [0.1] [[0.04]] 1 0.02).minVariance.risk
          < ((RunMonteCarlo (fun _ => 1) [0.1] [[0.04]] 1 0.02).monteCarloPoints.getD j default).risk)) ∧
      (∀ j, j < (RunMonteCarlo (fun _ => 1) [0.1] [[0.04]] 1 0.02).monteCarloPoints.length →
        ((RunMonteCarlo (fun _ => 1) [0.1] [[0.04]] 1 0.02).minVariance.risk
          ≤ ((RunMonteCarlo (fun _ => 1) [0.1] [[0.04]] 1 0.02).monteCarloPoints.getD j default).risk)))) :=
  ⟨by norm_num, runMonteCarlo_spec (fun _ => 1) [0.1] [[0.04]] 0.02 1 (by norm_num)⟩

end SampleFilter

end Frontier

namespace Frontier

namespace SampleFilter

theorem foldl_congr_mem {α β : Type*} (f g : α → β → α) :
    ∀ (l : List β) (a : α), (∀ (x : α) (b : β), b ∈ l → f x b = g x b) →
      l.foldl f a = l.foldl g a := by
  intro l
  induction l with
  | nil => intro a _; rfl
  | cons x xs ih =>
      intro a h
      rw [List.foldl_cons, List.foldl_cons, h a x (List.mem_cons_self x xs)]
      exact ih _ (fun y b hb => h y b (List.mem_cons_of_mem x hb))

theorem mcSample_congr (μ : List ℝ) (C : List (List ℝ)) (rf : ℝ)
    (st1 st2 : ℕ → ℝ) (s : ℕ)
    (h : ∀ i, i < μ.length → st1 (s * μ.length + i) = st2 (s * μ.length + i)) :
    mcSample μ C rf st1 s = mcSample μ C rf st2 s := by
  simp only [mcSample]
  have hw : randomWeights μ.length (fun i => st1 (s * μ.length + i))
      = randomWeights μ.length (fun i => st2 (s * μ.length + i)) := by
    unfold randomWeights
    have : (List.range μ.length).map (fun i => st1 (s * μ.length + i))
        = (List.range μ.length).map (fun i => st2 (s * μ.length + i)) := by
      apply List.map_congr_left
      intro i hi
      exact h i (List.mem_range.mp hi)
    rw [this]
  rw [hw]

/-- C6: the Monte Carlo run is a deterministic function of its declared
inputs: it consumes exactly the first `S * n` draws of its (fixed-seed)
generator stream, so two runs on identical inputs whose streams agree on
those draws produce identical output. -/
theorem runMonteCarlo_deterministic (μ : List ℝ) (C : List (List ℝ))
    (rf : ℝ) (S : ℤ) (st1 st2 : ℕ → ℝ)
    (h : ∀ k, k < S.toNat * μ.length → st1 k = st2 k) :
    RunMonteCarlo st1 μ C S rf = RunMonteCarlo st2 μ C S rf := by
  have hsample : ∀ s, s < S.toNat →
      mcSample μ C rf st1 s = mcSample μ C rf st2 s := by
    intro s hs
    apply mcSample_congr
    intro i hi
    apply h
    calc s * μ.length + i < s * μ.length + μ.length := by omega
      _ = (s + 1) * μ.length := by ring
      _ ≤ S.toNat * μ.length := by
          apply Nat.mul_le_mul_right
          omega
  have hfold : (List.range S.toNat).foldl (mcStep μ C rf st1)
        ([], maxSharpeInit, minVarInit)
      = (List.range S.toNat).foldl (mcStep μ C rf st2)
        ([], maxSharpeInit, minVarInit) := by
    apply foldl_congr_mem
    intro x s hs
    rw [mcStep_eq, mcStep_eq, hsample s (List.mem_range.mp hs)]
  unfold RunMonteCarlo
  rw [hfold]

/-- Witness for C6: two concrete streams that agree on the consumed prefix
yield identical results. -/
theorem runMonteCarlo_deterministic_witness :
    (∀ k, k < (1 : ℤ).toNat * ([0.1] : List ℝ).length →
      (fun _ : ℕ => (1 : ℝ)) k = (fun j : ℕ => if j = 0 then (1 : ℝ) else 2) k) ∧
    RunMonteCarlo (fun _ => 1) [0.1] [[0.04]] 1 0.02
      = RunMonteCarlo (fun j => if j = 0 then 1 else 2) [0.1] [[0.04]] 1 0.02 := by
  have h : ∀ k, k < (1 : ℤ).toNat * ([0.1] : List ℝ).length →
      (fun _ : ℕ => (1 : ℝ)) k = (fun j : ℕ => if j = 0 then (1 : ℝ) else 2) k := by
    intro k hk
    simp only [List.length_singleton, Int.toNat_one, one_mul] at hk
    interval_cases k
    simp
  exact ⟨h, runMonteCarlo_deterministic [0.1] [[0.04]] 0.02 1 _ _ h⟩

end SampleFilter

end Frontier

namespace Frontier

namespace SampleFilter

theorem simLE_iff (p q : SimulatedPortfolio) :
    simLE p q ↔ p.risk < q.risk ∨ (p.risk = q.risk ∧ p.ret ≤ q.ret) := by
  unfold simLE simLess
  by_cases h : q.risk = p.risk
  · rw [if_pos h]
    constructor
    · intro hn
      exact Or.inr ⟨h.symm, not_lt.mp hn⟩
    · rintro (hlt | ⟨_, hle⟩)
      · rw [h] at hlt
        exact absurd hlt (lt_irrefl _)
      · exact not_lt.mpr hle
  · rw [if_neg h]
    constructor
    · intro hn
      exact Or.inl (lt_of_le_of_ne (not_lt.mp hn) (fun he => h he.symm))
    · rintro (hlt | ⟨heq, _⟩)
      · exact not_lt.mpr (le_of_lt hlt)
      · exact absurd heq.symm h

instance : IsTotal SimulatedPortfolio simLE := by
  constructor
  intro p q
  by_cases hpq : simLE p q
  · exact Or.inl hpq
  · refine Or.inr (simLE_iff q p |>.mpr ?_)
    rw [simLE_iff] at hpq
    push_neg at hpq
    rcases hpq with ⟨h1, h2⟩
    rcases lt_trichotomy p.risk q.risk with hlt | heq | hgt
    · exact absurd hlt (not_lt.mpr h1)
    · exact Or.inr ⟨heq.symm, le_of_lt (h2 heq)⟩
    · exact Or.inl hgt

instance : IsTrans SimulatedPortfolio simLE := by
  constructor
  intro a b c hab hbc
  rw [simLE_iff] at hab hbc ⊢
  rcases hab with h1 | ⟨e1, r1⟩
  · rcases hbc with h2 | ⟨e2, _⟩
    · exact Or.inl (lt_trans h1 h2)
    · exact Or.inl (e2 ▸ h1)
  · rcases hbc with h2 | ⟨e2, r2⟩
    · exact Or.inl (e1 ▸ h2)
    · exact Or.inr ⟨e1.trans e2, le_trans r1 r2⟩

/-- The goodness relation carried along the non-dominated scan: risk is
non-decreasing and return strictly increasing along the emitted front. -/
def goodFP (p q : FrontierPoint) : Prop := p.risk ≤ q.risk ∧ p.ret < q.ret

theorem scan_invariant :
    ∀ (l : List SimulatedPortfolio) (best : EReal) (acc : List FrontierPoint),
    List.Pairwise simLE l →
    List.Pairwise goodFP acc →
    (∀ fp ∈ acc, (fp.ret : EReal) ≤ best) →
    (∀ fp ∈ acc, ∀ p ∈ l, fp.risk ≤ p.risk) →
    List.Pairwise goodFP (l.foldl frontierScanStep (best, acc)).2 := by
  intro l
  induction l with
  | nil =>
      intro best acc _ hacc _ _
      simpa using hacc
  | cons p t ih =>
      intro best acc hsort hacc hret hrisk
      rw [List.foldl_cons]
      rcases List.pairwise_cons.mp hsort with ⟨hp, ht⟩
      by_cases hc : (p.ret : EReal) > best
      · have hstep : frontierScanStep (best, acc) p
            = ((p.ret : EReal), acc ++ [⟨p.ret, p.risk, p.weights⟩]) := by
          simp [frontierScanStep, hc]
        rw [hstep]
        apply ih
        · exact ht
        · apply List.pairwise_append.mpr
          refine ⟨hacc, List.pairwise_singleton _ _, ?_⟩
          intro a ha fp hfp
          rw [List.mem_singleton] at hfp
          subst hfp
          constructor
          · exact hrisk a ha p (List.mem_cons_self p t)
          · have h2 : (a.ret : EReal) < (p.ret : EReal) :=
              lt_of_le_of_lt (hret a ha) hc
            exact_mod_cast h2
        · intro fp hfp
          rcases List.mem_append.mp hfp with h | h
          · exact le_of_lt (lt_of_le_of_lt (hret fp h) hc)
          · rw [List.mem_singleton] at h
            subst h
            exact le_refl _
        · intro fp hfp q hq
          rcases List.mem_append.mp hfp with h | h
          · exact hrisk fp h q (List.mem_cons_of_mem _ hq)
          · rw [List.mem_singleton] at h
            subst h
            rcases (simLE_iff p q).mp (hp q hq) with hlt | ⟨heq, _⟩
            · exact le_of_lt hlt
            · exact le_of_eq heq
      · have hstep : frontierScanStep (best, acc) p = (best, acc) := by
          simp [frontierScanStep, hc]
        rw [hstep]
        apply ih
        · exact ht
        · exact hacc
        · exact hret
        · intro fp hfp q hq
          exact hrisk fp hfp q (List.mem_cons_of_mem _ hq)

theorem efficientFront_pairwise (sims : List SimulatedPortfolio) :
    List.Pairwise goodFP (efficientFront sims) := by
  unfold efficientFront
  apply scan_invariant
  · exact List.sorted_insertionSort simLE sims
  · exact List.Pairwise.nil
  · intro fp hfp
    simp at hfp
  · intro fp hfp
    simp at hfp

end SampleFilter

end Frontier

namespace Frontier

theorem goRound_of_nonneg {x : ℝ} (hx : 0 ≤ x) : goRound x = ⌊x + 1/2⌋ :=
  if_neg (not_lt.mpr hx)

theorem goRound_nonneg {x : ℝ} (hx : 0 ≤ x) : 0 ≤ goRound x := by
  rw [goRound_of_nonneg hx]
  rw [Int.le_floor]
  push_cast
  linarith

theorem goRound_mono_of_nonneg {x y : ℝ} (hx : 0 ≤ x) (hxy : x ≤ y) :
    goRound x ≤ goRound y := by
  rw [goRound_of_nonneg hx, goRound_of_nonneg (le_trans hx hxy)]
  exact Int.floor_mono (by linarith)

theorem goRound_intCast {n : ℤ} (hn : 0 ≤ n) : goRound (n : ℝ) = n := by
  rw [goRound_of_nonneg (by exact_mod_cast hn)]
  rw [add_comm, Int.floor_add_int, show ⌊(1/2 : ℝ)⌋ = 0 from by norm_num]
  ring

namespace SampleFilter

theorem computeFrontierLineFromSimulations_def (sims : List SimulatedPortfolio)
    (maxPoints : ℤ) :
    computeFrontierLineFromSimulations sims maxPoints
      = if sims = [] then [] else
        if ((efficientFront sims).length : ℤ) ≤ maxPoints then efficientFront sims else
        (List.range maxPoints.toNat).map
          (fun i => (efficientFront sims).getD
            (resampleIdx (efficientFront sims).length maxPoints i).toNat ⟨0, 0, []⟩) := rfl

theorem efficientFront_nil : efficientFront [] = [] := rfl

theorem resampleIdx_def (lenE : ℕ) (maxPoints : ℤ) (i : ℕ) :
    resampleIdx lenE maxPoints i
      = if goRound ((i : ℝ) * (((lenE : ℝ) - 1) / ((maxPoints : ℝ) - 1))) ≥ (lenE : ℤ)
        then (lenE : ℤ) - 1
        else goRound ((i : ℝ) * (((lenE : ℝ) - 1) / ((maxPoints : ℝ) - 1))) := rfl

theorem step_nonneg {lenE : ℕ} {maxPoints : ℤ} (hK : 2 ≤ maxPoints) (hlen : 1 ≤ lenE) :
    0 ≤ ((lenE : ℝ) - 1) / ((maxPoints : ℝ) - 1) := by
  apply div_nonneg
  · have : (1 : ℝ) ≤ (lenE : ℝ) := by exact_mod_cast hlen
    linarith
  · have : (2 : ℝ) ≤ (maxPoints : ℝ) := by exact_mod_cast hK
    linarith

theorem resampleIdx_nonneg {lenE : ℕ} {maxPoints : ℤ} (hK : 2 ≤ maxPoints)
    (hlen : 1 ≤ lenE) (i : ℕ) : 0 ≤ resampleIdx lenE maxPoints i := by
  rw [resampleIdx_def]
  by_cases h : goRound ((i : ℝ) * (((lenE : ℝ) - 1) / ((maxPoints : ℝ) - 1))) ≥ (lenE : ℤ)
  · rw [if_pos h]; omega
  · rw [if_neg h]
    exact goRound_nonneg (mul_nonneg (by positivity) (step_nonneg hK hlen))

theorem resampleIdx_lt {lenE : ℕ} {maxPoints : ℤ} (hlen : 1 ≤ lenE) (i : ℕ) :
    resampleIdx lenE maxPoints i < (lenE : ℤ) := by
  rw [resampleIdx_def]
  by_cases h : goRound ((i : ℝ) * (((lenE : ℝ) - 1) / ((maxPoints : ℝ) - 1))) ≥ (lenE : ℤ)
  · rw [if_pos h]; omega
  · rw [if_neg h]; omega

theorem resampleIdx_mono {lenE : ℕ} {maxPoints : ℤ} (hK : 2 ≤ maxPoints)
    (hlen : 1 ≤ lenE) {i j : ℕ} (hij : i ≤ j) :
    resampleIdx lenE maxPoints i ≤ resampleIdx lenE maxPoints j := by
  have hmono : goRound ((i : ℝ) * (((lenE : ℝ) - 1) / ((maxPoints : ℝ) - 1)))
      ≤ goRound ((j : ℝ) * (((lenE : ℝ) - 1) / ((maxPoints : ℝ) - 1))) := by
    apply goRound_mono_of_nonneg (mul_nonneg (by positivity) (step_nonneg hK hlen))
    apply mul_le_mul_of_nonneg_right _ (step_nonneg hK hlen)
    exact_mod_cast hij
  rw [resampleIdx_def, resampleIdx_def]
  by_cases hi : goRound ((i : ℝ) * (((lenE : ℝ) - 1) / ((maxPoints : ℝ) - 1))) ≥ (lenE : ℤ)
  · rw [if_pos hi, if_pos (le_trans hi hmono)]
  · rw [if_neg hi]
    by_cases hj : goRound ((j : ℝ) * (((lenE : ℝ) - 1) / ((maxPoints : ℝ) - 1))) ≥ (lenE : ℤ)
    · rw [if_pos hj]; omega
    · rw [if_neg hj]; exact hmono

theorem resampleIdx_zero {lenE : ℕ} {maxPoints : ℤ} (hlen : 1 ≤ lenE) :
    resampleIdx lenE maxPoints 0 = 0 := by
  rw [resampleIdx_def]
  have h0 : goRound ((0 : ℕ) * (((lenE : ℝ) - 1) / ((maxPoints : ℝ) - 1))) = 0 := by
    rw [show ((0 : ℕ) : ℝ) * (((lenE : ℝ) - 1) / ((maxPoints : ℝ) - 1)) = ((0 : ℤ) : ℝ) by
      push_cast; ring]
    exact goRound_intCast le_rfl
  rw [h0, if_neg (by omega)]

theorem resampleIdx_last {lenE : ℕ} {maxPoints : ℤ} (hK : 2 ≤ maxPoints)
    (hKlen : maxPoints < (lenE : ℤ)) :
    resampleIdx lenE maxPoints (maxPoints.toNat - 1) = (lenE : ℤ) - 1 := by
  have hKR : (2 : ℝ) ≤ (maxPoints : ℝ) := by exact_mod_cast hK
  have hcast : ((maxPoints.toNat - 1 : ℕ) : ℝ) = (maxPoints : ℝ) - 1 := by
    have h1 : (1 : ℕ) ≤ maxPoints.toNat := by omega
    push_cast [h1]
    have : ((maxPoints.toNat : ℤ) : ℝ) = (maxPoints : ℝ) := by
      rw [Int.toNat_of_nonneg (by omega)]
    rw [← this]
    push_cast
    ring
  have hx : ((maxPoints.toNat - 1 : ℕ) : ℝ) * (((lenE : ℝ) - 1) / ((maxPoints : ℝ) - 1))
      = (lenE : ℝ) - 1 := by
    rw [hcast]
    have hne : (maxPoints : ℝ) - 1 ≠ 0 := by linarith
    rw [mul_comm, div_mul_cancel₀ _ hne]
  rw [resampleIdx_def, hx]
  have hcast2 : (lenE : ℝ) - 1 = (((lenE : ℤ) - 1 : ℤ) : ℝ) := by push_cast; ring
  have hround : goRound ((lenE : ℝ) - 1) = (lenE : ℤ) - 1 := by
    rw [hcast2]
    exact goRound_intCast (by omega)
  rw [hround, if_neg (by omega)]

end SampleFilter

end Frontier

namespace Frontier

namespace SampleFilter

theorem getD_pairwise {l : List FrontierPoint} {R : FrontierPoint → FrontierPoint → Prop}
    (hl : List.Pairwise R l) {a b : ℕ} (hab : a < b) (hb : b < l.length)
    (d : FrontierPoint) : R (l.getD a d) (l.getD b d) := by
  have ha : a < l.length := lt_trans hab hb
  rw [List.getD_eq_getElem l d ha, List.getD_eq_getElem l d hb]
  exact List.pairwise_iff_get.mp hl ⟨a, ha⟩ ⟨b, hb⟩ hab

theorem map_range_getD (f : ℕ → FrontierPoint) (n i : ℕ) (d : FrontierPoint)
    (h : i < n) : ((List.range n).map f).getD i d = f i := by
  have hi : i < ((List.range n).map f).length := by simpa using h
  rw [List.getD_eq_getElem _ d hi]
  simp

/-- The combined monotonicity invariant transferred to the extractor output. -/
theorem frontier_output_pairwise (sims : List SimulatedPortfolio) (K : ℤ)
    (hK : 2 ≤ K) :
    List.Pairwise (fun p q : FrontierPoint => p.risk ≤ q.risk ∧ p.ret ≤ q.ret)
      (computeFrontierLineFromSimulations sims K) := by
  have hE := efficientFront_pairwise sims
  rw [computeFrontierLineFromSimulations_def]
  by_cases hnil : sims = []
  · rw [if_pos hnil]
    exact List.Pairwise.nil
  · rw [if_neg hnil]
    by_cases hle : ((efficientFront sims).length : ℤ) ≤ K
    · rw [if_pos hle]
      exact hE.imp (fun h => ⟨h.1, le_of_lt h.2⟩)
    · rw [if_neg hle]
      push_neg at hle
      have hlen : 1 ≤ (efficientFront sims).length := by
        by_contra h
        have : (efficientFront sims).length = 0 := by omega
        rw [this] at hle
        omega
      rw [List.pairwise_map]
      have hrange : List.Pairwise (· < ·) (List.range K.toNat) :=
        List.pairwise_lt_range K.toNat
      apply hrange.imp
      intro i j hij
      have hidx : resampleIdx (efficientFront sims).length K i
          ≤ resampleIdx (efficientFront sims).length K j :=
        resampleIdx_mono hK hlen (le_of_lt hij)
      have hnn : 0 ≤ resampleIdx (efficientFront sims).length K i :=
        resampleIdx_nonneg hK hlen i
      have hltj : resampleIdx (efficientFront sims).length K j
          < ((efficientFront sims).length : ℤ) := resampleIdx_lt hlen j
      set a := (resampleIdx (efficientFront sims).length K i).toNat with ha
      set b := (resampleIdx (efficientFront sims).length K j).toNat with hb
      have hab : a ≤ b := by omega
      have hbl : b < (efficientFront sims).length := by omega
      rcases lt_or_eq_of_le hab with h | h
      · have := getD_pairwise hE h hbl ⟨0, 0, []⟩
        exact ⟨this.1, le_of_lt this.2⟩
      · rw [h]
        exact ⟨le_refl _, le_refl _⟩

/-- C3 (amended to the sample-filter design): every frontier sequence produced
by `computeFrontierLineFromSimulations` (point budget at least 2) has
non-decreasing risk across the sequence, and contains no pair `i < j` whose
earlier point has risk at least the later point's risk and return strictly
above it (no dominated point is emitted). -/
theorem frontier_monotone_nondominated (sims : List SimulatedPortfolio) (K : ℤ)
    (hK : 2 ≤ K) :
    List.Pairwise (fun p q : FrontierPoint => p.risk ≤ q.risk)
      (computeFrontierLineFromSimulations sims K) ∧
    List.Pairwise (fun p q : FrontierPoint => ¬(q.risk ≤ p.risk ∧ q.ret < p.ret))
      (computeFrontierLineFromSimulations sims K) := by
  have h := frontier_output_pairwise sims K hK
  constructor
  · exact h.imp (fun hpq => hpq.1)
  · exact h.imp (fun hpq hcon => absurd hcon.2 (not_lt.mpr hpq.2))

/-- Witness for C3 at a concrete sample list and the production point
budget `60`. -/
theorem frontier_monotone_nondominated_witness :
    (2 : ℤ) ≤ 60 ∧
    (List.Pairwise (fun p q : FrontierPoint => p.risk ≤ q.risk)
      (computeFrontierLineFromSimulations
        [⟨[1], 0.1, ((0.2 : ℝ) : EReal), ((0.25 : ℝ) : EReal)⟩] 60) ∧
    List.Pairwise (fun p q : FrontierPoint => ¬(q.risk ≤ p.risk ∧ q.ret < p.ret))
      (computeFrontierLineFromSimulations
        [⟨[1], 0.1, ((0.2 : ℝ) : EReal), ((0.25 : ℝ) : EReal)⟩] 60)) :=
  ⟨by norm_num,
   frontier_monotone_nondominated
     [⟨[1], 0.1, ((0.2 : ℝ) : EReal), ((0.25 : ℝ) : EReal)⟩] 60 (by norm_num)⟩

end SampleFilter

end Frontier

namespace Frontier

theorem head?_eq_getD (l : List FrontierPoint) (h : 0 < l.length) (d : FrontierPoint) :
    l.head? = some (l.getD 0 d) := by
  cases l with
  | nil => simp at h
  | cons a t => rfl

theorem getLast?_eq_getD (l : List FrontierPoint) (h : 0 < l.length) (d : FrontierPoint) :
    l.getLast? = some (l.getD (l.length - 1) d) := by
  have hlt : l.length - 1 < l.length := by omega
  rw [List.getLast?_eq_getElem?, List.getD_eq_getElem l d hlt,
    List.getElem?_eq_getElem hlt]

namespace SampleFilter

/-- C9: when the non-dominated front exceeds the point budget `K ≥ 2`, the
extractor returns exactly `K` points, selected from the filtered front by the
even index-stride rule, and the first and last points of the front are
preserved; when the front fits in the budget it is returned unchanged. -/
theorem resample_spec (sims : List SimulatedPortfolio) (K : ℤ) (hK : 2 ≤ K) :
    (((efficientFront sims).length : ℤ) ≤ K →
      computeFrontierLineFromSimulations sims K = efficientFront sims) ∧
    (K < ((efficientFront sims).length : ℤ) →
      (computeFrontierLineFromSimulations sims K).length = K.toNat ∧
      (computeFrontierLineFromSimulations sims K).head? = (efficientFront sims).head? ∧
      (computeFrontierLineFromSimulations sims K).getLast?
        = (efficientFront sims).getLast? ∧
      (∀ i, i < K.toNat →
        (computeFrontierLineFromSimulations sims K).getD i ⟨0, 0, []⟩
          = (efficientFront sims).getD
              (resampleIdx (efficientFront sims).length K i).toNat ⟨0, 0, []⟩)) := by
  constructor
  · intro hle
    rw [computeFrontierLineFromSimulations_def]
    by_cases hnil : sims = []
    · rw [if_pos hnil, hnil, efficientFront_nil]
    · rw [if_neg hnil, if_pos hle]
  · intro hlt
    have hnil : sims ≠ [] := by
      intro h
      rw [h, efficientFront_nil] at hlt
      simp at hlt
      omega
    have hout : computeFrontierLineFromSimulations sims K
        = (List.range K.toNat).map
            (fun i => (efficientFront sims).getD
              (resampleIdx (efficientFront sims).length K i).toNat ⟨0, 0, []⟩) := by
      rw [computeFrontierLineFromSimulations_def, if_neg hnil,
        if_neg (not_le.mpr hlt)]
    have hlenE : 1 ≤ (efficientFront sims).length := by omega
    have hKt : 0 < K.toNat := by omega
    refine ⟨by rw [hout]; simp, ?_, ?_, ?_⟩
    · rw [hout, head?_eq_getD _ (by simp; omega) ⟨0, 0, []⟩,
        head?_eq_getD _ (by omega) ⟨0, 0, []⟩,
        map_range_getD _ _ _ _ hKt, resampleIdx_zero hlenE]
      rfl
    · have houtlen : ((List.range K.toNat).map
          (fun i => (efficientFront sims).getD
            (resampleIdx (efficientFront sims).length K i).toNat ⟨0, 0, []⟩)).length
          = K.toNat := by simp
      rw [hout, getLast?_eq_getD _ (by simp; omega) ⟨0, 0, []⟩,
        getLast?_eq_getD _ (by omega) ⟨0, 0, []⟩, houtlen,
        map_range_getD _ _ _ _ (by omega : K.toNat - 1 < K.toNat),
        resampleIdx_last hK hlt]
      congr 2
      omega
    · intro i hi
      rw [hout, map_range_getD _ _ _ _ hi]

/-- A sample list whose non-dominated front has three points (all risks equal,
returns ascending). -/
noncomputable def wSim1 : SimulatedPortfolio := ⟨[1], 0.1, ((0.2 : ℝ) : EReal), ((0.25 : ℝ) : EReal)⟩

/-- Second sample of the witness list. -/
noncomputable def wSim2 : SimulatedPortfolio := ⟨[1], 0.2, ((0.2 : ℝ) : EReal), ((0.5 : ℝ) : EReal)⟩

/-- Third sample of the witness list. -/
noncomputable def wSim3 : SimulatedPortfolio := ⟨[1], 0.3, ((0.2 : ℝ) : EReal), ((0.75 : ℝ) : EReal)⟩

theorem wSims_sorted : List.insertionSort simLE [wSim1, wSim2, wSim3]
    = [wSim1, wSim2, wSim3] := by
  have h12 : simLE wSim1 wSim2 := by
    rw [simLE_iff]
    exact Or.inr ⟨rfl, by norm_num [wSim1, wSim2]⟩
  have h13 : simLE wSim1 wSim3 := by
    rw [simLE_iff]
    exact Or.inr ⟨rfl, by norm_num [wSim1, wSim3]⟩
  have h23 : simLE wSim2 wSim3 := by
    rw [simLE_iff]
    exact Or.inr ⟨rfl, by norm_num [wSim2, wSim3]⟩
  rw [List.insertionSort_cons simLE (by
    intro b hb
    rcases List.mem_cons.mp hb with h | h
    · rw [h]; exact h12
    · rw [List.mem_singleton.mp h]; exact h13)]
  rw [List.insertionSort_cons simLE (by
    intro b hb
    rw [List.mem_singleton.mp hb]
    exact h23)]
  rfl

theorem wSims_front : efficientFront [wSim1, wSim2, wSim3]
    = [⟨0.1, ((0.2 : ℝ) : EReal), [1]⟩, ⟨0.2, ((0.2 : ℝ) : EReal), [1]⟩,
       ⟨0.3, ((0.2 : ℝ) : EReal), [1]⟩] := by
  unfold efficientFront
  rw [wSims_sorted]
  have hs1 : frontierScanStep (⊥, []) wSim1
      = (((0.1 : ℝ) : EReal), [⟨0.1, ((0.2 : ℝ) : EReal), [1]⟩]) := by
    unfold frontierScanStep
    rw [if_pos (by exact EReal.bot_lt_coe _)]
    rfl
  have hs2 : frontierScanStep (((0.1 : ℝ) : EReal), [⟨0.1, ((0.2 : ℝ) : EReal), [1]⟩]) wSim2
      = (((0.2 : ℝ) : EReal),
         [⟨0.1, ((0.2 : ℝ) : EReal), [1]⟩, ⟨0.2, ((0.2 : ℝ) : EReal), [1]⟩]) := by
    simp only [frontierScanStep, wSim2]
    rw [if_pos (EReal.coe_lt_coe_iff.mpr (by norm_num))]
    rfl
  have hs3 : frontierScanStep (((0.2 : ℝ) : EReal),
        [⟨0.1, ((0.2 : ℝ) : EReal), [1]⟩, ⟨0.2, ((0.2 : ℝ) : EReal), [1]⟩]) wSim3
      = (((0.3 : ℝ) : EReal),
         [⟨0.1, ((0.2 : ℝ) : EReal), [1]⟩, ⟨0.2, ((0.2 : ℝ) : EReal), [1]⟩,
          ⟨0.3, ((0.2 : ℝ) : EReal), [1]⟩]) := by
    simp only [frontierScanStep, wSim3]
    rw [if_pos (EReal.coe_lt_coe_iff.mpr (by norm_num))]
    rfl
  rw [List.foldl_cons, hs1, List.foldl_cons, hs2, List.foldl_cons, hs3, List.foldl_nil]

/-- Witness for C9: three non-dominated points resampled down to a budget of
two points. -/
theorem resample_spec_witness :
    (2 : ℤ) ≤ 2 ∧
    2 < ((efficientFront [wSim1, wSim2, wSim3]).length : ℤ) ∧
    ((computeFrontierLineFromSimulations [wSim1, wSim2, wSim3] 2).length = (2 : ℤ).toNat ∧
     (computeFrontierLineFromSimulations [wSim1, wSim2, wSim3] 2).head?
       = (efficientFront [wSim1, wSim2, wSim3]).head? ∧
     (computeFrontierLineFromSimulations [wSim1, wSim2, wSim3] 2).getLast?
       = (efficientFront [wSim1, wSim2, wSim3]).getLast? ∧
     (∀ i, i < (2 : ℤ).toNat →
       (computeFrontierLineFromSimulations [wSim1, wSim2, wSim3] 2).getD i ⟨0, 0, []⟩
         = (efficientFront [wSim1, wSim2, wSim3]).getD
             (resampleIdx (efficientFront [wSim1, wSim2, wSim3]).length 2 i).toNat
             ⟨0, 0, []⟩)) := by
  have hlen : 2 < ((efficientFront [wSim1, wSim2, wSim3]).length : ℤ) := by
    rw [wSims_front]
    simp
  exact ⟨by norm_num, hlen,
    (resample_spec [wSim1, wSim2, wSim3] 2 (by norm_num)).2 hlen⟩

end SampleFilter

end Frontier

namespace Frontier

theorem foldl_invariant {α β : Type*} (P : α → Prop) (f : α → β → α) :
    ∀ (l : List β) (init : α), P init → (∀ a b, P a → P (f a b)) →
      P (l.foldl f init) := by
  intro l
  induction l with
  | nil => intro init h0 _; exact h0
  | cons x xs ih =>
      intro init h0 hstep
      rw [List.foldl_cons]
      exact ih (f init x) (hstep init x h0) hstep

namespace GradV1

/-- The max-return asset scan in the return-correction step of the first
gradient sweep (`maxIdx`). -/
noncomputable def maxRetIdx (μ : List ℝ) : ℕ :=
  (List.range μ.length).foldl (fun m i => if μ.getD i 0 > μ.getD m 0 then i else m) 0

/-- One iteration of the first gradient-projection loop, on the state
`(weights, learning rate)`; `none` records that the loop has exited with
`return nil` (projection collapsed). -/
noncomputable def v1Step (μ : List ℝ) (C : List (List ℝ)) (targetRet : ℝ)
    (st : Option (List ℝ × ℝ)) (iter : ℕ) : Option (List ℝ × ℝ) :=
  match st with
  | none => none
  | some (w, lr) =>
    let n := μ.length
    let grad := (List.range n).map (fun i =>
      (List.range n).foldl (fun acc j => acc + 2 * (C.getD i []).getD j 0 * w.getD j 0) 0)
    let w := (List.range n).map (fun i => w.getD i 0 - lr * grad.getD i 0)
    let w := w.map (fun x => if x < 0 then 0 else x)
    let currentRet := portfolioRet w μ
    let retDiff := targetRet - currentRet
    let w := if |retDiff| > 1e-8 then
        (let maxIdx := maxRetIdx μ
         let w2 := w.set maxIdx (w.getD maxIdx 0 + retDiff * 0.1)
         if w2.getD maxIdx 0 < 0 then w2.set maxIdx 0 else w2)
      else w
    let sum := w.foldl (· + ·) 0
    if sum < 1e-10 then none
    else
      let w := w.map (· / sum)
      let lr := if iter % 500 == 499 then lr * 0.5 else lr
      some (w, lr)

/-- `minVarForReturn` (first gradient variant): 3000 iterations of projected
gradient descent starting from equal weights; `none` is Go's `nil` result. -/
noncomputable def minVarForReturn (μ : List ℝ) (C : List (List ℝ))
    (targetRet : ℝ) : Option (List ℝ) :=
  let n := μ.length
  let w0 := (List.range n).map (fun _ => 1 / (n : ℝ))
  ((List.range 3000).foldl (v1Step μ C targetRet) (some (w0, 0.001))).map Prod.fst

/-- One step of the target-return sweep of `computeFrontierLine`: solve the
constrained minimum-variance problem and append the scored point, skipping
infeasible targets. -/
noncomputable def flStep (μ : List ℝ) (C : List (List ℝ)) (minRet maxRet : ℝ)
    (steps : ℕ) (rf : ℝ) (points : List FrontierPoint) (i : ℕ) : List FrontierPoint :=
  let targetRet := minRet + (maxRet - minRet) * (i : ℝ) / (steps : ℝ)
  (minVarForReturn μ C targetRet).elim points (fun w =>
    let r := PortfolioStats w μ C rf
    points ++ [⟨r.1, (r.2.1 : EReal), w⟩])

/-- `computeFrontierLine` (first gradient variant): sweep `steps + 1` target
returns from `minRet` to `maxRet` and emit the solved points in sweep order. -/
noncomputable def computeFrontierLine (μ : List ℝ) (C : List (List ℝ))
    (minRet maxRet : ℝ) (steps : ℕ) (rf : ℝ) : List FrontierPoint :=
  (List.range (steps + 1)).foldl (flStep μ C minRet maxRet steps rf) []

end GradV1

end Frontier

namespace Frontier

namespace GradV1

theorem maxRetIdx_eval : maxRetIdx [(-1 : ℝ), 0] = 1 := by
  unfold maxRetIdx
  norm_num [List.range_succ, List.getD_cons_zero, List.getD_cons_succ]

theorem v1Step_low (lr : ℝ) (iter : ℕ) :
    v1Step [(-1 : ℝ), 0] [[0, 0], [0, 0]] (-(1/2))
        (some ([1/2, 1/2], lr)) iter
      = some ([1/2, 1/2], if iter % 500 == 499 then lr * 0.5 else lr) := by
  simp only [v1Step]
  norm_num [List.range_succ, List.getD_cons_zero, List.getD_cons_succ, portfolioRet,
    maxRetIdx_eval]

end GradV1

end Frontier

namespace Frontier

namespace GradV1

theorem v1Step_high_first (lr : ℝ) (iter : ℕ) :
    v1Step [(-1 : ℝ), 0] [[0, 0], [0, 0]] (-(1/2) - 21/2000000000)
        (some ([1/2, 1/2], lr)) iter
      = some ([10000000000/19999999979, 9999999979/19999999979],
          if iter % 500 == 499 then lr * 0.5 else lr) := by
  simp only [v1Step]
  norm_num [List.range_succ, List.getD_cons_zero, List.getD_cons_succ, portfolioRet,
    maxRetIdx_eval, List.set, abs_of_pos, abs_of_neg]

theorem v1Step_high_stable (lr : ℝ) (iter : ℕ) :
    v1Step [(-1 : ℝ), 0] [[0, 0], [0, 0]] (-(1/2) - 21/2000000000)
        (some ([10000000000/19999999979, 9999999979/19999999979], lr)) iter
      = some ([10000000000/19999999979, 9999999979/19999999979],
          if iter % 500 == 499 then lr * 0.5 else lr) := by
  simp only [v1Step]
  norm_num [List.range_succ, List.getD_cons_zero, List.getD_cons_succ, portfolioRet,
    maxRetIdx_eval, List.set, abs_of_pos, abs_of_neg]


end GradV1

end Frontier

namespace Frontier

namespace GradV1

theorem minVarForReturn_def (μ : List ℝ) (C : List (List ℝ)) (t : ℝ) :
    minVarForReturn μ C t
      = ((List.range 3000).foldl (v1Step μ C t)
          (some ((List.range μ.length).map (fun _ => 1 / (μ.length : ℝ)), 0.001))).map
          Prod.fst := rfl

theorem minVar_low :
    minVarForReturn [(-1 : ℝ), 0] [[0, 0], [0, 0]] (-(1/2))
      = some [(1/2 : ℝ), 1/2] := by
  rw [minVarForReturn_def]
  have hw0 : (List.range ([(-1 : ℝ), 0]).length).map
      (fun _ => 1 / (([(-1 : ℝ), 0]).length : ℝ)) = [(1/2 : ℝ), 1/2] := by
    norm_num [List.range_succ]
  rw [hw0]
  have hinv : ∃ lr, (List.range 3000).foldl
      (v1Step [(-1 : ℝ), 0] [[0, 0], [0, 0]] (-(1/2)))
      (some ([(1/2 : ℝ), 1/2], 0.001)) = some ([(1/2 : ℝ), 1/2], lr) := by
    apply foldl_invariant (fun st => ∃ lr, st = some ([(1/2 : ℝ), 1/2], lr))
    · exact ⟨0.001, rfl⟩
    · rintro a b ⟨lr, rfl⟩
      rw [v1Step_low]
      exact ⟨_, rfl⟩
  rcases hinv with ⟨lr, hfold⟩
  rw [hfold]
  rfl

theorem minVar_high :
    minVarForReturn [(-1 : ℝ), 0] [[0, 0], [0, 0]] (-(1/2) - 21/2000000000)
      = some [(10000000000/19999999979 : ℝ), 9999999979/19999999979] := by
  rw [minVarForReturn_def]
  have hw0 : (List.range ([(-1 : ℝ), 0]).length).map
      (fun _ => 1 / (([(-1 : ℝ), 0]).length : ℝ)) = [(1/2 : ℝ), 1/2] := by
    norm_num [List.range_succ]
  rw [hw0]
  have hsplit : List.range 3000 = 0 :: List.range' 1 2999 := by
    rw [List.range_eq_range']
    rfl
  rw [hsplit, List.foldl_cons, v1Step_high_first]
  have hlr : (if 0 % 500 == 499 then (0.001 : ℝ) * 0.5 else 0.001) = 0.001 := by
    norm_num
  rw [hlr]
  have hinv : ∃ lr, (List.range' 1 2999).foldl
      (v1Step [(-1 : ℝ), 0] [[0, 0], [0, 0]] (-(1/2) - 21/2000000000))
      (some ([(10000000000/19999999979 : ℝ), 9999999979/19999999979], 0.001))
      = some ([(10000000000/19999999979 : ℝ), 9999999979/19999999979], lr) := by
    apply foldl_invariant
      (fun st => ∃ lr, st = some ([(10000000000/19999999979 : ℝ), 9999999979/19999999979], lr))
    · exact ⟨0.001, rfl⟩
    · rintro a b ⟨lr, rfl⟩
      rw [v1Step_high_stable]
      exact ⟨_, rfl⟩
  rcases hinv with ⟨lr, hfold⟩
  rw [hfold]
  rfl

end GradV1

end Frontier

namespace Frontier

namespace GradV1

theorem minVar_low' (t : ℝ) (ht : t = -(1/2)) :
    minVarForReturn [(-1 : ℝ), 0] [[0, 0], [0, 0]] t = some [(1/2 : ℝ), 1/2] := by
  rw [ht, minVar_low]

theorem minVar_high' (t : ℝ) (ht : t = -(1/2) - 21/2000000000) :
    minVarForReturn [(-1 : ℝ), 0] [[0, 0], [0, 0]] t
      = some [(10000000000/19999999979 : ℝ), 9999999979/19999999979] := by
  rw [ht, minVar_high]

theorem flStep_def (μ : List ℝ) (C : List (List ℝ)) (minRet maxRet : ℝ)
    (steps : ℕ) (rf : ℝ) (points : List FrontierPoint) (i : ℕ) :
    flStep μ C minRet maxRet steps rf points i
      = (minVarForReturn μ C (minRet + (maxRet - minRet) * (i : ℝ) / (steps : ℝ))).elim
          points (fun w => points ++ [⟨(PortfolioStats w μ C rf).1,
            ((PortfolioStats w μ C rf).2.1 : EReal), w⟩]) := rfl

theorem flStep_emit (μ : List ℝ) (C : List (List ℝ)) (minRet maxRet : ℝ)
    (steps : ℕ) (rf : ℝ) (points : List FrontierPoint) (i : ℕ) (w : List ℝ)
    (h : minVarForReturn μ C (minRet + (maxRet - minRet) * (i : ℝ) / (steps : ℝ))
      = some w) :
    flStep μ C minRet maxRet steps rf points i
      = points ++ [⟨(PortfolioStats w μ C rf).1,
          ((PortfolioStats w μ C rf).2.1 : EReal), w⟩] := by
  rw [flStep_def, h]
  rfl

theorem ps_ret_low : (PortfolioStats [(1/2 : ℝ), 1/2] [(-1 : ℝ), 0] [[0, 0], [0, 0]] 0).1
    = -(1/2) := by
  have h : (PortfolioStats [(1/2 : ℝ), 1/2] [(-1 : ℝ), 0] [[0, 0], [0, 0]] 0).1
      = portfolioRet [(1/2 : ℝ), 1/2] [(-1 : ℝ), 0] := rfl
  rw [h]
  norm_num [portfolioRet, List.range_succ, List.getD_cons_zero, List.getD_cons_succ]

theorem ps_vol_low : (PortfolioStats [(1/2 : ℝ), 1/2] [(-1 : ℝ), 0] [[0, 0], [0, 0]] 0).2.1
    = 0 := by
  have h : (PortfolioStats [(1/2 : ℝ), 1/2] [(-1 : ℝ), 0] [[0, 0], [0, 0]] 0).2.1
      = Real.sqrt (portfolioVariance [(1/2 : ℝ), 1/2] [[0, 0], [0, 0]]) := rfl
  rw [h, show portfolioVariance [(1/2 : ℝ), 1/2] [[0, 0], [0, 0]] = 0 from by
    norm_num [portfolioVariance, List.range_succ, List.getD_cons_zero, List.getD_cons_succ],
    Real.sqrt_zero]

theorem ps_ret_high : (PortfolioStats [(10000000000/19999999979 : ℝ), 9999999979/19999999979]
      [(-1 : ℝ), 0] [[0, 0], [0, 0]] 0).1 = -(10000000000/19999999979) := by
  have h : (PortfolioStats [(10000000000/19999999979 : ℝ), 9999999979/19999999979]
      [(-1 : ℝ), 0] [[0, 0], [0, 0]] 0).1
      = portfolioRet [(10000000000/19999999979 : ℝ), 9999999979/19999999979] [(-1 : ℝ), 0] := rfl
  rw [h]
  norm_num [portfolioRet, List.range_succ, List.getD_cons_zero, List.getD_cons_succ]

theorem ps_vol_high : (PortfolioStats [(10000000000/19999999979 : ℝ), 9999999979/19999999979]
      [(-1 : ℝ), 0] [[0, 0], [0, 0]] 0).2.1 = 0 := by
  have h : (PortfolioStats [(10000000000/19999999979 : ℝ), 9999999979/19999999979]
      [(-1 : ℝ), 0] [[0, 0], [0, 0]] 0).2.1
      = Real.sqrt (portfolioVariance [(10000000000/19999999979 : ℝ), 9999999979/19999999979]
          [[0, 0], [0, 0]]) := rfl
  rw [h, show portfolioVariance [(10000000000/19999999979 : ℝ), 9999999979/19999999979]
      [[0, 0], [0, 0]] = 0 from by
    norm_num [portfolioVariance, List.range_succ, List.getD_cons_zero, List.getD_cons_succ],
    Real.sqrt_zero]

theorem flStep_eval0 (pts : List FrontierPoint) :
    flStep [(-1 : ℝ), 0] [[0, 0], [0, 0]] (-(1/2)) (-(1/2) - 21/2000000000) 1 0 pts 0
      = pts ++ [⟨-(1/2), ((0 : ℝ) : EReal), [(1/2 : ℝ), 1/2]⟩] := by
  rw [flStep_emit _ _ _ _ _ _ _ _ _ (minVar_low' _ (by norm_num)),
    ps_ret_low, ps_vol_low]

theorem flStep_eval1 (pts : List FrontierPoint) :
    flStep [(-1 : ℝ), 0] [[0, 0], [0, 0]] (-(1/2)) (-(1/2) - 21/2000000000) 1 0 pts 1
      = pts ++ [⟨-(10000000000/19999999979), ((0 : ℝ) : EReal),
          [(10000000000/19999999979 : ℝ), 9999999979/19999999979]⟩] := by
  rw [flStep_emit _ _ _ _ _ _ _ _ _ (minVar_high' _ (by norm_num)),
    ps_ret_high, ps_vol_high]

/-- Counterexample to C3 as stated: in the gradient-projection sweep design,
a frontier computed for a sample cloud with zero covariance and negative mean
returns (so that the sweep runs from the min-variance return down to the
larger-in-magnitude `1.5 x` best-Sharpe return) emits a second point with the
same risk and strictly lower return than the first: the pair `(0, 1)`
violates non-domination (`risk[0] >= risk[1]` and `return[0] > return[1]`). -/
theorem frontier_gradV1_counterexample :
    (computeFrontierLine [(-1 : ℝ), 0] [[0, 0], [0, 0]]
        (-(1/2)) (-(1/2) - 21/2000000000) 1 0).length = 2 ∧
    ((computeFrontierLine [(-1 : ℝ), 0] [[0, 0], [0, 0]]
        (-(1/2)) (-(1/2) - 21/2000000000) 1 0).getD 0 ⟨0, 0, []⟩).risk
      ≥ ((computeFrontierLine [(-1 : ℝ), 0] [[0, 0], [0, 0]]
        (-(1/2)) (-(1/2) - 21/2000000000) 1 0).getD 1 ⟨0, 0, []⟩).risk ∧
    ((computeFrontierLine [(-1 : ℝ), 0] [[0, 0], [0, 0]]
        (-(1/2)) (-(1/2) - 21/2000000000) 1 0).getD 0 ⟨0, 0, []⟩).ret
      > ((computeFrontierLine [(-1 : ℝ), 0] [[0, 0], [0, 0]]
        (-(1/2)) (-(1/2) - 21/2000000000) 1 0).getD 1 ⟨0, 0, []⟩).ret := by
  have hF : computeFrontierLine [(-1 : ℝ), 0] [[0, 0], [0, 0]]
      (-(1/2)) (-(1/2) - 21/2000000000) 1 0
      = [⟨-(1/2), ((0 : ℝ) : EReal), [(1/2 : ℝ), 1/2]⟩,
         ⟨-(10000000000/19999999979), ((0 : ℝ) : EReal),
          [(10000000000/19999999979 : ℝ), 9999999979/19999999979]⟩] := by
    have hdef : computeFrontierLine [(-1 : ℝ), 0] [[0, 0], [0, 0]]
        (-(1/2)) (-(1/2) - 21/2000000000) 1 0
        = (List.range 2).foldl
            (flStep [(-1 : ℝ), 0] [[0, 0], [0, 0]] (-(1/2)) (-(1/2) - 21/2000000000) 1 0)
            [] := rfl
    rw [hdef, show List.range 2 = [0, 1] from rfl, List.foldl_cons, flStep_eval0,
      List.foldl_cons, flStep_eval1, List.foldl_nil]
    simp
  rw [hF]
  refine ⟨rfl, ?_, ?_⟩
  · simp only [List.getD_cons_zero, List.getD_cons_succ]
    exact le_refl _
  · simp only [List.getD_cons_zero, List.getD_cons_succ]
    norm_num

end GradV1

end Frontier

namespace Frontier

namespace GradV2

/-- One pass of the inner sum/return projection loop of the second gradient
variant, on the state `(weights, broken)`; `broken` records that the Go
`break` has fired, after which the remaining passes do nothing. -/
noncomputable def innerStep (μ : List ℝ) (targetRet : ℝ)
    (st : List ℝ × Bool) (_p : ℕ) : List ℝ × Bool :=
  if st.2 then st else
  let w := st.1
  let n := μ.length
  let sumW := w.foldl (· + ·) 0
  let w := (List.range n).map (fun i => w.getD i 0 + (1 - sumW) / (n : ℝ))
  let currRet := portfolioRet w μ
  let retDiff := targetRet - currRet
  if |retDiff| < 1e-10 then (w, true)
  else
    let meanMean := mean μ
    let sqDiffSum := μ.foldl (fun acc r => acc + (r - meanMean) * (r - meanMean)) 0
    let w := if sqDiffSum > 1e-12 then
        (List.range n).map (fun i =>
          w.getD i 0 + retDiff * (μ.getD i 0 - meanMean) / sqDiffSum)
      else w
    (w, false)

/-- One iteration of the outer loop of the second gradient variant, on the
state `(weights, learning rate)`: gradient step, ten inner projection passes,
then the non-negativity clamp and the learning-rate decay. -/
noncomputable def v2Step (μ : List ℝ) (C : List (List ℝ)) (targetRet : ℝ)
    (st : List ℝ × ℝ) (iter : ℕ) : List ℝ × ℝ :=
  let w := st.1
  let lr := st.2
  let n := μ.length
  let grad := (List.range n).map (fun i =>
    (List.range n).foldl (fun acc j => acc + 2 * (C.getD i []).getD j 0 * w.getD j 0) 0)
  let w := (List.range n).map (fun i => w.getD i 0 - lr * grad.getD i 0)
  let w := ((List.range 10).foldl (innerStep μ targetRet) (w, false)).1
  let w := w.map (fun x => if x < 0 then 0 else x)
  let lr := if iter % 1000 == 999 then lr * 0.5 else lr
  (w, lr)

/-- `minVarForReturn` (second gradient variant): 5000 outer iterations from
equal weights; this variant always returns a weight vector. -/
noncomputable def minVarForReturn (μ : List ℝ) (C : List (List ℝ))
    (targetRet : ℝ) : List ℝ :=
  let n := μ.length
  let w0 := (List.range n).map (fun _ => 1 / (n : ℝ))
  ((List.range 5000).foldl (v2Step μ C targetRet) (w0, 0.01)).1

/-- One step of the target-return sweep of the second variant's
`computeFrontierLine` (its `minVarForReturn` never returns nil, so every
swept target emits a point). -/
noncomputable def flStep (μ : List ℝ) (C : List (List ℝ)) (minRet maxRet : ℝ)
    (steps : ℕ) (rf : ℝ) (points : List FrontierPoint) (i : ℕ) : List FrontierPoint :=
  let targetRet := minRet + (maxRet - minRet) * (i : ℝ) / (steps : ℝ)
  let w := minVarForReturn μ C targetRet
  let r := PortfolioStats w μ C rf
  points ++ [⟨r.1, (r.2.1 : EReal), w⟩]

/-- `computeFrontierLine` (second gradient variant). -/
noncomputable def computeFrontierLine (μ : List ℝ) (C : List (List ℝ))
    (minRet maxRet : ℝ) (steps : ℕ) (rf : ℝ) : List FrontierPoint :=
  (List.range (steps + 1)).foldl (flStep μ C minRet maxRet steps rf) []

end GradV2

end Frontier

namespace Frontier

namespace GradV2

theorem innerStep_broken (μ : List ℝ) (t : ℝ) (w : List ℝ) (p : ℕ) :
    innerStep μ t (w, true) p = (w, true) := by
  simp [innerStep]

theorem foldl_innerStep_broken (μ : List ℝ) (t : ℝ) :
    ∀ (l : List ℕ) (w : List ℝ), l.foldl (innerStep μ t) (w, true) = (w, true) := by
  intro l
  induction l with
  | nil => intro w; rfl
  | cons p ps ih =>
      intro w
      rw [List.foldl_cons, innerStep_broken]
      exact ih w

theorem innerStepA0 (p : ℕ) :
    innerStep [(0 : ℝ), 1] (3/2) (([1/2, 1/2] : List ℝ), false) p
      = ([-(1/2), 3/2], false) := by
  simp only [innerStep]
  norm_num [List.range_succ, List.getD_cons_zero, List.getD_cons_succ, portfolioRet,
    mean, abs_of_pos, abs_of_neg]

theorem innerStepA1 (p : ℕ) :
    innerStep [(0 : ℝ), 1] (3/2) (([-(1/2), 3/2] : List ℝ), false) p
      = ([-(1/2), 3/2], true) := by
  simp only [innerStep]
  norm_num [List.range_succ, List.getD_cons_zero, List.getD_cons_succ, portfolioRet,
    mean, abs_of_pos, abs_of_neg]

theorem innerStepB0 (p : ℕ) :
    innerStep [(0 : ℝ), 1] (3/2) (([0, 3/2] : List ℝ), false) p
      = ([-(1/2), 3/2], false) := by
  simp only [innerStep]
  norm_num [List.range_succ, List.getD_cons_zero, List.getD_cons_succ, portfolioRet,
    mean, abs_of_pos, abs_of_neg]

theorem innerFoldA :
    (List.range 10).foldl (innerStep [(0 : ℝ), 1] (3/2)) (([1/2, 1/2] : List ℝ), false)
      = ([-(1/2), 3/2], true) := by
  have hsplit : List.range 10 = 0 :: 1 :: List.range' 2 8 := by
    rw [List.range_eq_range']
    rfl
  rw [hsplit, List.foldl_cons, innerStepA0, List.foldl_cons, innerStepA1,
    foldl_innerStep_broken]

theorem innerFoldB :
    (List.range 10).foldl (innerStep [(0 : ℝ), 1] (3/2)) (([0, 3/2] : List ℝ), false)
      = ([-(1/2), 3/2], true) := by
  have hsplit : List.range 10 = 0 :: 1 :: List.range' 2 8 := by
    rw [List.range_eq_range']
    rfl
  rw [hsplit, List.foldl_cons, innerStepB0, List.foldl_cons, innerStepA1,
    foldl_innerStep_broken]

theorem range_two : List.range 2 = [0, 1] := rfl

theorem v2Step_first (lr : ℝ) (iter : ℕ) :
    v2Step [(0 : ℝ), 1] [[0, 0], [0, 0]] (3/2) (([1/2, 1/2] : List ℝ), lr) iter
      = ([0, 3/2], if iter % 1000 == 999 then lr * 0.5 else lr) := by
  simp only [v2Step]
  norm_num [range_two, List.getD_cons_zero, List.getD_cons_succ, innerFoldA]

theorem v2Step_stable (lr : ℝ) (iter : ℕ) :
    v2Step [(0 : ℝ), 1] [[0, 0], [0, 0]] (3/2) (([0, 3/2] : List ℝ), lr) iter
      = ([0, 3/2], if iter % 1000 == 999 then lr * 0.5 else lr) := by
  simp only [v2Step]
  norm_num [range_two, List.getD_cons_zero, List.getD_cons_succ, innerFoldB]

theorem minVarForReturn_v2_def (μ : List ℝ) (C : List (List ℝ)) (t : ℝ) :
    minVarForReturn μ C t
      = ((List.range 5000).foldl (v2Step μ C t)
          ((List.range μ.length).map (fun _ => 1 / (μ.length : ℝ)), 0.01)).1 := rfl

theorem minVar_three_halves :
    minVarForReturn [(0 : ℝ), 1] [[0, 0], [0, 0]] (3/2) = [0, 3/2] := by
  rw [minVarForReturn_v2_def]
  have hw0 : (List.range ([(0 : ℝ), 1]).length).map
      (fun _ => 1 / (([(0 : ℝ), 1]).length : ℝ)) = [(1/2 : ℝ), 1/2] := by
    norm_num [List.range_succ]
  rw [hw0]
  have hsplit : List.range 5000 = 0 :: List.range' 1 4999 := by
    rw [List.range_eq_range']
    rfl
  rw [hsplit, List.foldl_cons, v2Step_first]
  have hlr : (if 0 % 1000 == 999 then (0.01 : ℝ) * 0.5 else 0.01) = 0.01 := by
    norm_num
  rw [hlr]
  have hinv : ∃ lr, (List.range' 1 4999).foldl
      (v2Step [(0 : ℝ), 1] [[0, 0], [0, 0]] (3/2)) (([0, 3/2] : List ℝ), 0.01)
      = (([0, 3/2] : List ℝ), lr) := by
    apply foldl_invariant (fun st => ∃ lr, st = (([0, 3/2] : List ℝ), lr))
    · exact ⟨0.01, rfl⟩
    · rintro a b ⟨lr, rfl⟩
      rw [v2Step_stable]
      exact ⟨_, rfl⟩
  rcases hinv with ⟨lr, hfold⟩
  rw [hfold]

theorem minVar_three_halves' (t : ℝ) (ht : t = 3/2) :
    minVarForReturn [(0 : ℝ), 1] [[0, 0], [0, 0]] t = [0, 3/2] := by
  rw [ht, minVar_three_halves]

theorem flStep_v2_def (μ : List ℝ) (C : List (List ℝ)) (minRet maxRet : ℝ)
    (steps : ℕ) (rf : ℝ) (points : List FrontierPoint) (i : ℕ) :
    flStep μ C minRet maxRet steps rf points i
      = points ++
        [⟨(PortfolioStats
            (minVarForReturn μ C (minRet + (maxRet - minRet) * (i : ℝ) / (steps : ℝ)))
            μ C rf).1,
          ((PortfolioStats
            (minVarForReturn μ C (minRet + (maxRet - minRet) * (i : ℝ) / (steps : ℝ)))
            μ C rf).2.1 : EReal),
          minVarForReturn μ C (minRet + (maxRet - minRet) * (i : ℝ) / (steps : ℝ))⟩] := rfl

theorem ps_ret_v2 : (PortfolioStats [(0 : ℝ), 3/2] [(0 : ℝ), 1] [[0, 0], [0, 0]] 0).1
    = 3/2 := by
  have h : (PortfolioStats [(0 : ℝ), 3/2] [(0 : ℝ), 1] [[0, 0], [0, 0]] 0).1
      = portfolioRet [(0 : ℝ), 3/2] [(0 : ℝ), 1] := rfl
  rw [h]
  norm_num [portfolioRet, List.range_succ, List.getD_cons_zero, List.getD_cons_succ]

theorem ps_vol_v2 : (PortfolioStats [(0 : ℝ), 3/2] [(0 : ℝ), 1] [[0, 0], [0, 0]] 0).2.1
    = 0 := by
  have h : (PortfolioStats [(0 : ℝ), 3/2] [(0 : ℝ), 1] [[0, 0], [0, 0]] 0).2.1
      = Real.sqrt (portfolioVariance [(0 : ℝ), 3/2] [[0, 0], [0, 0]]) := rfl
  rw [h, show portfolioVariance [(0 : ℝ), 3/2] [[0, 0], [0, 0]] = 0 from by
    norm_num [portfolioVariance, List.range_succ, List.getD_cons_zero,
      List.getD_cons_succ], Real.sqrt_zero]

theorem flStep_eval_v2 (pts : List FrontierPoint) (i : ℕ) (hi : i ≤ 1) :
    flStep [(0 : ℝ), 1] [[0, 0], [0, 0]] (3/2) (3/2) 1 0 pts i
      = pts ++ [⟨3/2, ((0 : ℝ) : EReal), [(0 : ℝ), 3/2]⟩] := by
  rw [flStep_v2_def, minVar_three_halves' _ (by norm_num), ps_ret_v2, ps_vol_v2]

/-- Counterexample to C4 as stated: in the second gradient-projection design,
sweeping a target return beyond the attainable range (which the production
sweep bound `1.5 x` best-Sharpe return can produce) emits a `FrontierPoint`
whose weights sum to `3/2` - far outside any floating tolerance of 1 - because
the final non-negativity clamp runs after the last sum-to-one projection. -/
theorem gradV2_weights_counterexample :
    (computeFrontierLine [(0 : ℝ), 1] [[0, 0], [0, 0]] (3/2) (3/2) 1 0).length = 2 ∧
    ((computeFrontierLine [(0 : ℝ), 1] [[0, 0], [0, 0]] (3/2) (3/2) 1 0).getD 0
        ⟨0, 0, []⟩).weights.foldl (· + ·) 0 = 3/2 ∧
    ¬ |((computeFrontierLine [(0 : ℝ), 1] [[0, 0], [0, 0]] (3/2) (3/2) 1 0).getD 0
        ⟨0, 0, []⟩).weights.foldl (· + ·) 0 - 1| ≤ 1/100 := by
  have hF : computeFrontierLine [(0 : ℝ), 1] [[0, 0], [0, 0]] (3/2) (3/2) 1 0
      = [⟨3/2, ((0 : ℝ) : EReal), [(0 : ℝ), 3/2]⟩,
         ⟨3/2, ((0 : ℝ) : EReal), [(0 : ℝ), 3/2]⟩] := by
    have hdef : computeFrontierLine [(0 : ℝ), 1] [[0, 0], [0, 0]] (3/2) (3/2) 1 0
        = (List.range 2).foldl
            (flStep [(0 : ℝ), 1] [[0, 0], [0, 0]] (3/2) (3/2) 1 0) [] := rfl
    rw [hdef, show List.range 2 = [0, 1] from rfl, List.foldl_cons,
      flStep_eval_v2 _ 0 (by norm_num), List.foldl_cons,
      flStep_eval_v2 _ 1 (by norm_num), List.foldl_nil]
    simp
  rw [hF]
  refine ⟨rfl, ?_, ?_⟩
  · simp only [List.getD_cons_zero]
    norm_num
  · simp only [List.getD_cons_zero]
    norm_num [abs_of_pos]

end GradV2

end Frontier

namespace Frontier

theorem foldl_add_eq_listSum : ∀ (l : List ℝ) (a : ℝ), l.foldl (· + ·) a = a + l.sum := by
  intro l
  induction l with
  | nil => intro a; simp
  | cons x xs ih =>
      intro a
      rw [List.foldl_cons, ih, List.sum_cons]
      ring

theorem sum_map_div : ∀ (l : List ℝ) (c : ℝ), (l.map (· / c)).sum = l.sum / c := by
  intro l c
  induction l with
  | nil => simp
  | cons x xs ih =>
      rw [List.map_cons, List.sum_cons, List.sum_cons, ih, add_div]

theorem mem_set_cases {α : Type*} :
    ∀ (l : List α) (i : ℕ) (v x : α), x ∈ l.set i v →
      (i < l.length ∧ x = v) ∨ x ∈ l := by
  intro l
  induction l with
  | nil => intro i v x hx; simp at hx
  | cons a t ih =>
      intro i v x hx
      cases i with
      | zero =>
          rw [List.set_cons_zero] at hx
          rcases List.mem_cons.mp hx with h | h
          · exact Or.inl ⟨by simp, h⟩
          · exact Or.inr (List.mem_cons_of_mem a h)
      | succ j =>
          rw [List.set_cons_succ] at hx
          rcases List.mem_cons.mp hx with h | h
          · exact Or.inr (h ▸ List.mem_cons_self a t)
          · rcases ih j v x h with ⟨hj, hv⟩ | hmem
            · exact Or.inl ⟨by simpa using hj, hv⟩
            · exact Or.inr (List.mem_cons_of_mem a hmem)

/-- Weight-vector facts for the exponential-draw sampler: positive draws give
non-negative normalized weights summing to exactly one. -/
theorem randomWeights_props (n : ℕ) (draw : ℕ → ℝ)
    (hpos : ∀ k, 0 < draw k) (hn : 1 ≤ n) :
    (randomWeights n draw).foldl (· + ·) 0 = 1 ∧ ∀ x ∈ randomWeights n draw, 0 ≤ x := by
  have hw : randomWeights n draw
      = ((List.range n).map draw).map
          (· / ((List.range n).map draw).foldl (· + ·) 0) := rfl
  have hsum : ((List.range n).map draw).foldl (· + ·) 0
      = ((List.range n).map draw).sum := by
    rw [foldl_add_eq_listSum]; ring
  have hpos' : 0 < ((List.range n).map draw).sum := by
    apply List.sum_pos
    · intro x hx
      rcases List.mem_map.mp hx with ⟨k, _, rfl⟩
      exact hpos k
    · simp [List.map_eq_nil_iff]
      omega
  constructor
  · rw [hw, foldl_add_eq_listSum, zero_add, sum_map_div, hsum]
    exact div_self (ne_of_gt hpos')
  · intro x hx
    rw [hw] at hx
    rcases List.mem_map.mp hx with ⟨y, hy, rfl⟩
    rcases List.mem_map.mp hy with ⟨k, _, rfl⟩
    rw [hsum]
    exact div_nonneg (le_of_lt (hpos k)) (le_of_lt hpos')

end Frontier

namespace Frontier

theorem clamp_nonneg (l : List ℝ) :
    ∀ x ∈ l.map (fun x => if x < 0 then 0 else x), 0 ≤ x := by
  intro x hx
  rcases List.mem_map.mp hx with ⟨y, _, rfl⟩
  by_cases hy : y < 0
  · rw [if_pos hy]
  · rw [if_neg hy]
    exact not_lt.mp hy

theorem normalized_props (wc : List ℝ) (hnn : ∀ x ∈ wc, 0 ≤ x)
    (hcond : ¬ wc.foldl (· + ·) 0 < 1e-10) :
    (wc.map (· / wc.foldl (· + ·) 0)).foldl (· + ·) 0 = 1
      ∧ ∀ x ∈ wc.map (· / wc.foldl (· + ·) 0), 0 ≤ x := by
  have hS : 0 < wc.foldl (· + ·) 0 := by
    push_neg at hcond
    calc (0 : ℝ) < 1e-10 := by norm_num
      _ ≤ wc.foldl (· + ·) 0 := hcond
  constructor
  · rw [foldl_add_eq_listSum, zero_add, sum_map_div]
    rw [foldl_add_eq_listSum, zero_add] at hS ⊢
    exact div_self (ne_of_gt hS)
  · intro x hx
    rcases List.mem_map.mp hx with ⟨y, hy, rfl⟩
    exact div_nonneg (hnn y hy) (le_of_lt hS)

theorem sum_map_const_range (n : ℕ) (c : ℝ) :
    ((List.range n).map (fun _ => c)).sum = n * c := by
  induction n with
  | zero => simp
  | succ m ih =>
      rw [List.range_succ, List.map_append, List.sum_append, ih]
      push_cast
      simp
      ring

namespace GradV1

end GradV1

end Frontier

namespace Frontier

namespace GradV1

theorem set_zero_nonneg (wcl : List ℝ) (i : ℕ) (v : ℝ)
    (hcl : ∀ x ∈ wcl, 0 ≤ x) : ∀ x ∈ (wcl.set i v).set i 0, 0 ≤ x := by
  intro x hx
  rw [List.set_set] at hx
  rcases mem_set_cases _ _ _ _ hx with ⟨_, rfl⟩ | hmem
  · exact le_refl 0
  · exact hcl x hmem

theorem set_nonneg_of_getD (wcl : List ℝ) (i : ℕ) (v : ℝ)
    (hcl : ∀ x ∈ wcl, 0 ≤ x) (h : ¬ (wcl.set i v).getD i 0 < 0) :
    ∀ x ∈ wcl.set i v, 0 ≤ x := by
  intro x hx
  rcases mem_set_cases _ _ _ _ hx with ⟨hlt, rfl⟩ | hmem
  · push_neg at h
    rw [List.getD_eq_getElem _ _ (by simpa using hlt)] at h
    rw [List.getElem_set_self (by simpa using hlt)] at h
    exact h
  · exact hcl x hmem

theorem v1Step_some_props (μ : List ℝ) (C : List (List ℝ)) (t : ℝ) (iter : ℕ)
    (st : Option (List ℝ × ℝ)) :
    ∀ w' lr', v1Step μ C t st iter = some (w', lr') →
      w'.foldl (· + ·) 0 = 1 ∧ ∀ x ∈ w', 0 ≤ x := by
  match st with
  | none =>
      intro w' lr' h
      simp [v1Step] at h
  | some (w, lr) =>
      intro w' lr' h
      simp only [v1Step] at h
      split at h
      next hcorr =>
        split at h
        next hclamp =>
          split at h
          next hsum => simp at h
          next hsum =>
            rw [Option.some.injEq, Prod.mk.injEq] at h
            rcases h with ⟨hw, _⟩
            subst hw
            exact normalized_props _ (set_zero_nonneg _ _ _ (clamp_nonneg _)) hsum
        next hclamp =>
          split at h
          next hsum => simp at h
          next hsum =>
            rw [Option.some.injEq, Prod.mk.injEq] at h
            rcases h with ⟨hw, _⟩
            subst hw
            exact normalized_props _
              (set_nonneg_of_getD _ _ _ (clamp_nonneg _) hclamp) hsum
      next hcorr =>
        split at h
        next hsum => simp at h
        next hsum =>
          rw [Option.some.injEq, Prod.mk.injEq] at h
          rcases h with ⟨hw, _⟩
          subst hw
          exact normalized_props _ (clamp_nonneg _) hsum

end GradV1

end Frontier

namespace Frontier

namespace GradV1

theorem minVar_some_props (μ : List ℝ) (C : List (List ℝ)) (t : ℝ)
    (hn : 1 ≤ μ.length) (w : List ℝ)
    (h : minVarForReturn μ C t = some w) :
    w.foldl (· + ·) 0 = 1 ∧ ∀ x ∈ w, 0 ≤ x := by
  rw [minVarForReturn_def] at h
  rcases Option.map_eq_some'.mp h with ⟨⟨wf, lrf⟩, hst, hfst⟩
  have hP := foldl_invariant (fun st : Option (List ℝ × ℝ) =>
      ∀ w' lr', st = some (w', lr') →
        w'.foldl (· + ·) 0 = 1 ∧ ∀ x ∈ w', 0 ≤ x)
    (v1Step μ C t) (List.range 3000)
    (some ((List.range μ.length).map (fun _ => 1 / (μ.length : ℝ)), 0.001))
    (by
      intro w' lr' heq
      rw [Option.some.injEq, Prod.mk.injEq] at heq
      rcases heq with ⟨hw, _⟩
      subst hw
      constructor
      · rw [foldl_add_eq_listSum, zero_add, sum_map_const_range]
        have hne : (μ.length : ℝ) ≠ 0 := by
          have h1 : (1 : ℝ) ≤ (μ.length : ℝ) := by exact_mod_cast hn
          linarith
        field_simp
      · intro x hx
        rcases List.mem_map.mp hx with ⟨_, _, rfl⟩
        positivity)
    (fun a b _ => v1Step_some_props μ C t b a)
  have hprops := hP wf lrf hst
  rw [← hfst]
  exact hprops

end GradV1

namespace GradV2

theorem v2Step_fst (μ : List ℝ) (C : List (List ℝ)) (t : ℝ)
    (st : List ℝ × ℝ) (iter : ℕ) :
    (v2Step μ C t st iter).1
      = (((List.range 10).foldl (innerStep μ t)
          ((List.range μ.length).map (fun i =>
            st.1.getD i 0 - st.2 * ((List.range μ.length).map (fun i =>
              (List.range μ.length).foldl (fun acc j =>
                acc + 2 * (C.getD i []).getD j 0 * st.1.getD j 0) 0)).getD i 0),
           false)).1).map (fun x => if x < 0 then 0 else x) := rfl

theorem minVar_nonneg (μ : List ℝ) (C : List (List ℝ)) (t : ℝ) :
    ∀ x ∈ minVarForReturn μ C t, 0 ≤ x := by
  rw [minVarForReturn_v2_def]
  have hP := foldl_invariant (fun st : List ℝ × ℝ => ∀ x ∈ st.1, 0 ≤ x)
    (v2Step μ C t) (List.range 5000)
    ((List.range μ.length).map (fun _ => 1 / (μ.length : ℝ)), 0.01)
    (by
      intro x hx
      rcases List.mem_map.mp hx with ⟨_, _, rfl⟩
      positivity)
    (fun a b _ => by
      show ∀ x ∈ (v2Step μ C t a b).1, 0 ≤ x
      rw [v2Step_fst]
      exact clamp_nonneg _)
  exact hP

end GradV2

end Frontier

namespace Frontier

namespace SampleFilter

theorem scan_mem :
    ∀ (l : List SimulatedPortfolio) (best : EReal) (acc : List FrontierPoint),
    ∀ fp ∈ (l.foldl frontierScanStep (best, acc)).2,
      fp ∈ acc ∨ ∃ p ∈ l, fp = ⟨p.ret, p.risk, p.weights⟩ := by
  intro l
  induction l with
  | nil =>
      intro best acc fp hfp
      exact Or.inl (by simpa using hfp)
  | cons p t ih =>
      intro best acc fp hfp
      rw [List.foldl_cons] at hfp
      by_cases hc : (p.ret : EReal) > best
      · have hstep : frontierScanStep (best, acc) p
            = ((p.ret : EReal), acc ++ [⟨p.ret, p.risk, p.weights⟩]) := by
          simp [frontierScanStep, hc]
        rw [hstep] at hfp
        rcases ih _ _ fp hfp with hmem | ⟨q, hq, rfl⟩
        · rcases List.mem_append.mp hmem with h | h
          · exact Or.inl h
          · rw [List.mem_singleton] at h
            exact Or.inr ⟨p, List.mem_cons_self p t, h⟩
        · exact Or.inr ⟨q, List.mem_cons_of_mem p hq, rfl⟩
      · have hstep : frontierScanStep (best, acc) p = (best, acc) := by
          simp [frontierScanStep, hc]
        rw [hstep] at hfp
        rcases ih _ _ fp hfp with hmem | ⟨q, hq, rfl⟩
        · exact Or.inl hmem
        · exact Or.inr ⟨q, List.mem_cons_of_mem p hq, rfl⟩

theorem efficientFront_mem (sims : List SimulatedPortfolio) :
    ∀ fp ∈ efficientFront sims, ∃ sp ∈ sims, fp = ⟨sp.ret, sp.risk, sp.weights⟩ := by
  intro fp hfp
  rcases scan_mem (List.insertionSort simLE sims) ⊥ [] fp hfp with h | ⟨p, hp, rfl⟩
  · simp at h
  · exact ⟨p, (List.perm_insertionSort simLE sims).mem_iff.mp hp, rfl⟩

theorem cFLFS_mem (sims : List SimulatedPortfolio) (K : ℤ) (hK : 2 ≤ K) :
    ∀ fp ∈ computeFrontierLineFromSimulations sims K,
      ∃ sp ∈ sims, fp = ⟨sp.ret, sp.risk, sp.weights⟩ := by
  intro fp hfp
  rw [computeFrontierLineFromSimulations_def] at hfp
  by_cases hnil : sims = []
  · rw [if_pos hnil] at hfp
    simp at hfp
  · rw [if_neg hnil] at hfp
    by_cases hle : ((efficientFront sims).length : ℤ) ≤ K
    · rw [if_pos hle] at hfp
      exact efficientFront_mem sims fp hfp
    · rw [if_neg hle] at hfp
      push_neg at hle
      have hlen : 1 ≤ (efficientFront sims).length := by omega
      rcases List.mem_map.mp hfp with ⟨i, _, rfl⟩
      have hnn := resampleIdx_nonneg hK hlen i
      have hlt := @resampleIdx_lt (efficientFront sims).length K hlen i
      have hidx : (resampleIdx (efficientFront sims).length K i).toNat
          < (efficientFront sims).length := by omega
      rw [List.getD_eq_getElem _ _ hidx]
      exact efficientFront_mem sims _ (List.getElem_mem hidx)

theorem runMonteCarlo_frontier (stream : ℕ → ℝ) (μ : List ℝ) (C : List (List ℝ))
    (S : ℤ) (rf : ℝ) :
    (RunMonteCarlo stream μ C S rf).frontierPoints
      = computeFrontierLineFromSimulations
          (RunMonteCarlo stream μ C S rf).monteCarloPoints 60 := rfl

end SampleFilter

namespace GradV1

theorem frontier_weights (μ : List ℝ) (C : List (List ℝ)) (hn : 1 ≤ μ.length)
    (minRet maxRet rf : ℝ) (steps : ℕ) :
    ∀ fp ∈ computeFrontierLine μ C minRet maxRet steps rf,
      fp.weights.foldl (· + ·) 0 = 1 ∧ ∀ x ∈ fp.weights, 0 ≤ x := by
  have hdef : computeFrontierLine μ C minRet maxRet steps rf
      = (List.range (steps + 1)).foldl (flStep μ C minRet maxRet steps rf) [] := rfl
  rw [hdef]
  exact foldl_invariant (fun pts => ∀ fp ∈ pts,
      fp.weights.foldl (· + ·) 0 = 1 ∧ ∀ x ∈ fp.weights, 0 ≤ x)
    (flStep μ C minRet maxRet steps rf) (List.range (steps + 1)) []
    (by intro fp hfp; simp at hfp)
    (by
      intro a i ha
      intro fp hfp
      rw [flStep_def] at hfp
      rcases hmv : minVarForReturn μ C
          (minRet + (maxRet - minRet) * (i : ℝ) / (steps : ℝ)) with _ | w
      · rw [hmv] at hfp
        exact ha fp hfp
      · rw [hmv] at hfp
        rcases List.mem_append.mp hfp with h | h
        · exact ha fp h
        · rw [List.mem_singleton] at h
          subst h
          exact minVar_some_props μ C _ hn w hmv)

end GradV1

namespace GradV2

theorem frontier_nonneg (μ : List ℝ) (C : List (List ℝ))
    (minRet maxRet rf : ℝ) (steps : ℕ) :
    ∀ fp ∈ computeFrontierLine μ C minRet maxRet steps rf,
      ∀ x ∈ fp.weights, 0 ≤ x := by
  have hdef : computeFrontierLine μ C minRet maxRet steps rf
      = (List.range (steps + 1)).foldl (flStep μ C minRet maxRet steps rf) [] := rfl
  rw [hdef]
  exact foldl_invariant (fun pts => ∀ fp ∈ pts, ∀ x ∈ fp.weights, 0 ≤ x)
    (flStep μ C minRet maxRet steps rf) (List.range (steps + 1)) []
    (by intro fp hfp; simp at hfp)
    (by
      intro a i ha
      intro fp hfp
      rw [flStep_v2_def] at hfp
      rcases List.mem_append.mp hfp with h | h
      · exact ha fp h
      · rw [List.mem_singleton] at h
        subst h
        intro x hx
        dsimp only at hx
        exact minVar_nonneg μ C _ x hx)

end GradV2

end Frontier

namespace Frontier

/-- C4 (amended): with positive draws and a non-empty asset list, every weight
vector the engine scores or reports is non-negative and sums to exactly one —
every Monte Carlo sample, the reported max-Sharpe and min-variance portfolios
(once at least one simulation ran), every sample-filter frontier point, and
every point of the first gradient sweep; the second gradient sweep guarantees
non-negativity but not the unit sum (see its counterexample). -/
theorem weights_invariant (stream : ℕ → ℝ) (μ : List ℝ) (C : List (List ℝ))
    (rf : ℝ) (S : ℤ) (hpos : ∀ k, 0 < stream k) (hn : 1 ≤ μ.length) :
    (∀ sp ∈ (SampleFilter.RunMonteCarlo stream μ C S rf).monteCarloPoints,
       sp.weights.foldl (· + ·) 0 = 1 ∧ ∀ x ∈ sp.weights, 0 ≤ x) ∧
    (1 ≤ S →
       ((SampleFilter.RunMonteCarlo stream μ C S rf).maxSharpe.weights.foldl (· + ·) 0 = 1
         ∧ ∀ x ∈ (SampleFilter.RunMonteCarlo stream μ C S rf).maxSharpe.weights, 0 ≤ x) ∧
       ((SampleFilter.RunMonteCarlo stream μ C S rf).minVariance.weights.foldl (· + ·) 0 = 1
         ∧ ∀ x ∈ (SampleFilter.RunMonteCarlo stream μ C S rf).minVariance.weights, 0 ≤ x)) ∧
    (∀ fp ∈ (SampleFilter.RunMonteCarlo stream μ C S rf).frontierPoints,
       fp.weights.foldl (· + ·) 0 = 1 ∧ ∀ x ∈ fp.weights, 0 ≤ x) ∧
    (∀ (minRet maxRet rfr : ℝ) (steps : ℕ),
       ∀ fp ∈ GradV1.computeFrontierLine μ C minRet maxRet steps rfr,
         fp.weights.foldl (· + ·) 0 = 1 ∧ ∀ x ∈ fp.weights, 0 ≤ x) ∧
    (∀ (minRet maxRet rfr : ℝ) (steps : ℕ),
       ∀ fp ∈ GradV2.computeFrontierLine μ C minRet maxRet steps rfr,
         ∀ x ∈ fp.weights, 0 ≤ x) := by
  have hpts : ∀ sp ∈ (SampleFilter.RunMonteCarlo stream μ C S rf).monteCarloPoints,
      sp.weights.foldl (· + ·) 0 = 1 ∧ ∀ x ∈ sp.weights, 0 ≤ x := by
    intro sp hsp
    rw [SampleFilter.runMonteCarlo_points] at hsp
    rcases List.mem_map.mp hsp with ⟨s, _, rfl⟩
    have hw : (SampleFilter.mcSample μ C rf stream s).weights
        = randomWeights μ.length (fun i => stream (s * μ.length + i)) := rfl
    rw [hw]
    exact randomWeights_props _ _ (fun k => hpos _) hn
  refine ⟨hpts, ?_, ?_, ?_, ?_⟩
  · intro hS
    obtain ⟨-, ⟨i, hi, hmax, -, -⟩, ⟨j, hj, hmin, -, -⟩⟩ :=
      SampleFilter.runMonteCarlo_spec stream μ C rf S hS
    constructor
    · rw [hmax]
      apply hpts
      rw [List.getD_eq_getElem _ _ hi]
      exact List.getElem_mem hi
    · rw [hmin]
      apply hpts
      rw [List.getD_eq_getElem _ _ hj]
      exact List.getElem_mem hj
  · intro fp hfp
    rw [SampleFilter.runMonteCarlo_frontier] at hfp
    rcases SampleFilter.cFLFS_mem _ 60 (by norm_num) fp hfp with ⟨sp, hsp, rfl⟩
    exact hpts sp hsp
  · intro minRet maxRet rfr steps
    exact GradV1.frontier_weights μ C hn minRet maxRet rfr steps
  · intro minRet maxRet rfr steps
    exact GradV2.frontier_nonneg μ C minRet maxRet rfr steps

/-- Witness for C4 at a concrete stream, asset universe and simulation
count. -/
theorem weights_invariant_witness :
    (∀ k : ℕ, 0 < ((fun _ : ℕ => (1 : ℝ)) k)) ∧ 1 ≤ ([(0.1 : ℝ)] : List ℝ).length ∧
    ((∀ sp ∈ (SampleFilter.RunMonteCarlo (fun _ => 1) [0.1] [[0.04]] 1 0.02).monteCarloPoints,
       sp.weights.foldl (· + ·) 0 = 1 ∧ ∀ x ∈ sp.weights, 0 ≤ x) ∧
    (1 ≤ (1 : ℤ) →
       ((SampleFilter.RunMonteCarlo (fun _ => 1) [0.1] [[0.04]] 1 0.02).maxSharpe.weights.foldl (· + ·) 0 = 1
         ∧ ∀ x ∈ (SampleFilter.RunMonteCarlo (fun _ => 1) [0.1] [[0.04]] 1 0.02).maxSharpe.weights, 0 ≤ x) ∧
       ((SampleFilter.RunMonteCarlo (fun _ => 1) [0.1] [[0.04]] 1 0.02).minVariance.weights.foldl (· + ·) 0 = 1
         ∧ ∀ x ∈ (SampleFilter.RunMonteCarlo (fun _ => 1) [0.1] [[0.04]] 1 0.02).minVariance.weights, 0 ≤ x)) ∧
    (∀ fp ∈ (SampleFilter.RunMonteCarlo (fun _ => 1) [0.1] [[0.04]] 1 0.02).frontierPoints,
       fp.weights.foldl (· + ·) 0 = 1 ∧ ∀ x ∈ fp.weights, 0 ≤ x) ∧
    (∀ (minRet maxRet rfr : ℝ) (steps : ℕ),
       ∀ fp ∈ GradV1.computeFrontierLine [0.1] [[0.04]] minRet maxRet steps rfr,
         fp.weights.foldl (· + ·) 0 = 1 ∧ ∀ x ∈ fp.weights, 0 ≤ x) ∧
    (∀ (minRet maxRet rfr : ℝ) (steps : ℕ),
       ∀ fp ∈ GradV2.computeFrontierLine [0.1] [[0.04]] minRet maxRet steps rfr,
         ∀ x ∈ fp.weights, 0 ≤ x)) :=
  ⟨fun _ => one_pos, by norm_num,
   weights_invariant (fun _ => 1) [0.1] [[0.04]] 0.02 1 (fun _ => one_pos) (by norm_num)⟩

end Frontier

namespace Frontier

/-- `data.PriceData`: the close-price series of one ticker (dates omitted;
they are diagnostic only). -/
structure PriceData where
  ticker : String
  closes : List ℝ

instance : Inhabited PriceData := ⟨⟨"", []⟩⟩

/-- `AssetStats`: annualized statistics of one asset. -/
structure AssetStats where
  ticker : String
  annualReturn : ℝ
  annualVolatility : ℝ

instance : Inhabited AssetStats := ⟨⟨"", 0, 0⟩⟩

/-- `Returns`: log-returns of a price series
(`ret[i-1] = log(prices[i]/prices[i-1])` for `i = 1 .. len-1`). -/
noncomputable def Returns (prices : List ℝ) : List ℝ :=
  (List.range (prices.length - 1)).map
    (fun i => Real.log (prices.getD (i + 1) 0 / prices.getD i 0))

/-- A single assignment `covMatrix[a][b] = v` on the matrix state. -/
def mwrite (M : ℕ → ℕ → ℝ) (a b : ℕ) (v : ℝ) : ℕ → ℕ → ℝ :=
  fun x y => if x = a ∧ y = b then v else M x y

/-- The sequence of index pairs visited by the covariance double loop
(`for i := 0; i < n` / `for j := i; j < n`). -/
def covWrites (n : ℕ) : List (ℕ × ℕ) :=
  (List.range n).flatMap (fun i => (List.range' i (n - i)).map (fun j => (i, j)))

/-- Per-asset log-return series (`allReturns` in `PrepareAssets`). -/
noncomputable def allReturnsOf (priceData : List PriceData) : List (List ℝ) :=
  priceData.map (fun pd => Returns pd.closes)

/-- The running-minimum loop over series lengths, started from
`math.MaxInt32`. -/
noncomputable def minLenOf (priceData : List PriceData) : ℕ :=
  (allReturnsOf priceData).foldl
    (fun m r => if r.length < m then r.length else m) 2147483647

/-- Right-truncation of every return series to its `minLen` most recent
observations (`r[len(r)-minLen:]`). -/
noncomputable def returnMatrixOf (priceData : List PriceData) : List (List ℝ) :=
  (allReturnsOf priceData).map (fun r => r.drop (r.length - minLenOf priceData))

/-- The annualized sample-covariance value computed for the `(i,j)` loop
iteration (`cov / float64(minLen-1) * tradingDays`). -/
noncomputable def covFOf (priceData : List PriceData) (i j : ℕ) : ℝ :=
  ((List.range (minLenOf priceData)).foldl (fun acc k =>
    acc + (((returnMatrixOf priceData).getD i []).getD k 0
            - mean ((returnMatrixOf priceData).getD i []))
        * (((returnMatrixOf priceData).getD j []).getD k 0
            - mean ((returnMatrixOf priceData).getD j []))) 0)
    / ((minLenOf priceData : ℝ) - 1) * 252

/-- The result record of `PrepareAssets` (its five return values). -/
structure PreparedAssets where
  tickers : List String
  meanReturns : List ℝ
  covMatrix : ℕ → ℕ → ℝ
  returnMatrix : List (List ℝ)
  stats : List AssetStats

/-- `PrepareAssets`: align the per-asset log-return series to the shortest
length (keeping the tail, i.e. the most recent data) and compute the
annualized mean returns, per-asset stats, and the annualized sample
covariance matrix (upper triangle computed, both triangles written). -/
noncomputable def PrepareAssets (priceData : List PriceData) : PreparedAssets :=
  let tradingDays : ℝ := 252
  let minLen := minLenOf priceData
  let returnMatrix := returnMatrixOf priceData
  let n := priceData.length
  let tickers := priceData.map (fun pd => pd.ticker)
  let meanReturns := returnMatrix.map (fun r => mean r * tradingDays)
  let stats := (List.range n).map (fun i =>
    let m := mean (returnMatrix.getD i [])
    let variance := ((returnMatrix.getD i []).foldl
      (fun acc r => acc + (r - m) * (r - m)) 0) / ((minLen : ℝ) - 1)
    AssetStats.mk (priceData.getD i default).ticker (m * tradingDays)
      (Real.sqrt (variance * tradingDays)))
  let covMatrix := (covWrites n).foldl
    (fun M p => mwrite (mwrite M p.1 p.2 (covFOf priceData p.1 p.2))
      p.2 p.1 (covFOf priceData p.1 p.2))
    (fun _ _ => 0)
  ⟨tickers, meanReturns, covMatrix, returnMatrix, stats⟩

end Frontier

namespace Frontier

/-! ### Helper lemmas for the statistics layer -/

theorem minLenOf_def (pd : List PriceData) :
    minLenOf pd = (allReturnsOf pd).foldl
      (fun m r => if r.length < m then r.length else m) 2147483647 := rfl

theorem minLenFold_spec (l : List (List ℝ)) : ∀ (init : ℕ),
    (l.foldl (fun m r => if r.length < m then r.length else m) init = init
      ∨ ∃ r ∈ l, l.foldl (fun m r => if r.length < m then r.length else m) init
          = r.length)
    ∧ l.foldl (fun m r => if r.length < m then r.length else m) init ≤ init
    ∧ ∀ r ∈ l, l.foldl (fun m r => if r.length < m then r.length else m) init
        ≤ r.length := by
  induction l with
  | nil => intro init; exact ⟨Or.inl rfl, le_refl _, by simp⟩
  | cons a t ih =>
      intro init
      simp only [List.foldl_cons]
      obtain ⟨h1, h2, h3⟩ := ih (if a.length < init then a.length else init)
      refine ⟨?_, ?_, ?_⟩
      · rcases h1 with h | ⟨r, hr, hres⟩
        · by_cases hc : a.length < init
          · exact Or.inr ⟨a, List.mem_cons_self a t, by rw [h, if_pos hc]⟩
          · exact Or.inl (by rw [h, if_neg hc])
        · exact Or.inr ⟨r, List.mem_cons_of_mem a hr, hres⟩
      · exact le_trans h2 (by split <;> omega)
      · intro r hr
        rcases List.mem_cons.mp hr with rfl | hr'
        · exact le_trans h2 (by split <;> omega)
        · exact h3 r hr'

theorem listSum_eq_range_sum (l : List ℝ) :
    l.sum = ∑ k ∈ Finset.range l.length, l.getD k 0 := by
  induction l with
  | nil => simp
  | cons a t ih =>
      rw [List.sum_cons, List.length_cons, Finset.sum_range_succ']
      simp only [List.getD_cons_succ, List.getD_cons_zero]
      rw [ih]; ring

theorem getD_map_lt {α β : Type*} (f : α → β) (l : List α) (i : ℕ) (d : β)
    (d' : α) (h : i < l.length) : (l.map f).getD i d = f (l.getD i d') := by
  rw [List.getD_eq_getElem _ d (by simpa using h), List.getD_eq_getElem _ d' h]
  simp

theorem mean_eq_range_sum (r : List ℝ) :
    mean r = (∑ k ∈ Finset.range r.length, r.getD k 0) / r.length := by
  unfold mean
  rw [foldl_add_eq_listSum, zero_add, listSum_eq_range_sum]

theorem mwrite_same (M : ℕ → ℕ → ℝ) (a b : ℕ) (v : ℝ) : mwrite M a b v a b = v := by
  simp [mwrite]

theorem mwrite_other (M : ℕ → ℕ → ℝ) (a b : ℕ) (v : ℝ) (x y : ℕ)
    (h : ¬(x = a ∧ y = b)) : mwrite M a b v x y = M x y := by
  simp only [mwrite, if_neg h]

theorem covFold_notouch (covF : ℕ → ℕ → ℝ) (x y : ℕ) :
    ∀ (ps : List (ℕ × ℕ)) (M : ℕ → ℕ → ℝ),
    (∀ p ∈ ps, ¬(p.1 = x ∧ p.2 = y) ∧ ¬(p.2 = x ∧ p.1 = y)) →
    (ps.foldl (fun M p => mwrite (mwrite M p.1 p.2 (covF p.1 p.2))
      p.2 p.1 (covF p.1 p.2)) M) x y = M x y := by
  intro ps
  induction ps with
  | nil => intro M _; rfl
  | cons p t ih =>
      intro M h
      rw [List.foldl_cons, ih _ (fun q hq => h q (List.mem_cons_of_mem p hq))]
      obtain ⟨h1, h2⟩ := h p (List.mem_cons_self p t)
      rw [mwrite_other _ _ _ _ _ _ (fun hc => h2 ⟨hc.1.symm, hc.2.symm⟩),
          mwrite_other _ _ _ _ _ _ (fun hc => h1 ⟨hc.1.symm, hc.2.symm⟩)]

theorem covFold_value (covF : ℕ → ℕ → ℝ) (i j : ℕ) (ps : List (ℕ × ℕ))
    (M : ℕ → ℕ → ℝ)
    (h : ∀ p ∈ ps, ¬(p.1 = i ∧ p.2 = j) ∧ ¬(p.1 = j ∧ p.2 = i)) :
    ((((i, j) :: ps).foldl (fun M p => mwrite (mwrite M p.1 p.2 (covF p.1 p.2))
        p.2 p.1 (covF p.1 p.2)) M) i j = covF i j)
    ∧ ((((i, j) :: ps).foldl (fun M p => mwrite (mwrite M p.1 p.2 (covF p.1 p.2))
        p.2 p.1 (covF p.1 p.2)) M) j i = covF i j) := by
  rw [List.foldl_cons]
  constructor
  · rw [covFold_notouch covF i j ps _
      (fun p hp => ⟨(h p hp).1, fun hc => (h p hp).2 ⟨hc.2, hc.1⟩⟩)]
    by_cases hij : i = j
    · subst hij; exact mwrite_same _ _ _ _
    · rw [mwrite_other _ _ _ _ _ _ (fun hc => hij hc.1), mwrite_same]
  · rw [covFold_notouch covF j i ps _
      (fun p hp => ⟨(h p hp).2, fun hc => (h p hp).1 ⟨hc.2, hc.1⟩⟩)]
    exact mwrite_same _ _ _ _

theorem mwrite2_get (M : ℕ → ℕ → ℝ) (a b : ℕ) (v : ℝ) (x y : ℕ) :
    mwrite (mwrite M a b v) b a v x y
      = if (x = a ∧ y = b) ∨ (x = b ∧ y = a) then v else M x y := by
  simp only [mwrite]
  split_ifs <;> first | rfl | tauto

theorem mwrite2_symm (M : ℕ → ℕ → ℝ) (a b : ℕ) (v : ℝ)
    (hM : ∀ x y, M x y = M y x) (x y : ℕ) :
    mwrite (mwrite M a b v) b a v x y = mwrite (mwrite M a b v) b a v y x := by
  rw [mwrite2_get, mwrite2_get]
  by_cases hc : (x = a ∧ y = b) ∨ (x = b ∧ y = a)
  · rw [if_pos hc, if_pos (by tauto)]
  · rw [if_neg hc, if_neg (by tauto)]
    exact hM x y

theorem covFold_symm (covF : ℕ → ℕ → ℝ) : ∀ (ps : List (ℕ × ℕ)) (M : ℕ → ℕ → ℝ),
    (∀ x y, M x y = M y x) → ∀ x y,
    (ps.foldl (fun M p => mwrite (mwrite M p.1 p.2 (covF p.1 p.2))
      p.2 p.1 (covF p.1 p.2)) M) x y
      = (ps.foldl (fun M p => mwrite (mwrite M p.1 p.2 (covF p.1 p.2))
          p.2 p.1 (covF p.1 p.2)) M) y x := by
  intro ps
  induction ps with
  | nil => intro M hM; exact hM
  | cons p t ih =>
      intro M hM
      simp only [List.foldl_cons]
      exact ih _ (mwrite2_symm M p.1 p.2 _ hM)

theorem covWrites_decomp (n i j : ℕ) (hij : i ≤ j) (hj : j < n) :
    ∃ pre post, covWrites n = pre ++ (i, j) :: post
      ∧ ∀ p ∈ post, ¬(p.1 = i ∧ p.2 = j) ∧ ¬(p.1 = j ∧ p.2 = i) := by
  obtain ⟨t, ht⟩ : ∃ t, n - i = t + 1 := ⟨n - i - 1, by omega⟩
  obtain ⟨m, hm⟩ : ∃ m, n - j = m + 1 := ⟨n - j - 1, by omega⟩
  have hrows : List.range n = List.range i ++ i :: List.range' (i + 1) t := by
    have h := List.range'_append_1 0 i (n - i)
    rw [Nat.zero_add] at h
    have h2 : (n - i) + i = n := by omega
    rw [h2] at h
    rw [List.range_eq_range', ← h, ht, List.range'_succ, List.range_eq_range']
  have hcols : List.range' i (n - i)
      = List.range' i (j - i) ++ j :: List.range' (j + 1) m := by
    have h := List.range'_append_1 i (j - i) (m + 1)
    have e1 : i + (j - i) = j := by omega
    have e2 : (m + 1) + (j - i) = n - i := by omega
    rw [e1, e2, List.range'_succ] at h
    exact h.symm
  refine ⟨(List.range i).flatMap
      (fun a => (List.range' a (n - a)).map (fun b => (a, b)))
      ++ (List.range' i (j - i)).map (fun b => (i, b)),
    (List.range' (j + 1) m).map (fun b => (i, b))
      ++ (List.range' (i + 1) t).flatMap
          (fun a => (List.range' a (n - a)).map (fun b => (a, b))), ?_, ?_⟩
  · unfold covWrites
    rw [hrows, List.flatMap_append, List.flatMap_cons, hcols, List.map_append,
        List.map_cons]
    simp [List.append_assoc]
  · intro p hp
    rcases List.mem_append.mp hp with hp1 | hp2
    · obtain ⟨b, hb, rfl⟩ := List.mem_map.mp hp1
      have hbr := List.mem_range'_1.mp hb
      constructor
      · rintro ⟨-, hb2⟩; simp only at hb2; omega
      · rintro ⟨h1, h2⟩; simp only at h1 h2; omega
    · obtain ⟨a, ha, hpa⟩ := List.mem_flatMap.mp hp2
      obtain ⟨b, hb, rfl⟩ := List.mem_map.mp hpa
      have har := List.mem_range'_1.mp ha
      have hbr := List.mem_range'_1.mp hb
      constructor
      · rintro ⟨h1, -⟩; simp only at h1; omega
      · rintro ⟨h1, h2⟩; simp only at h1 h2; omega

end Frontier

namespace Frontier

/-! ### `PrepareAssets` projection lemmas and the C5 theorem -/

theorem prepareAssets_returnMatrix (pd : List PriceData) :
    (PrepareAssets pd).returnMatrix = returnMatrixOf pd := rfl

theorem prepareAssets_meanReturns (pd : List PriceData) :
    (PrepareAssets pd).meanReturns
      = (returnMatrixOf pd).map (fun r => mean r * 252) := rfl

theorem prepareAssets_covMatrix (pd : List PriceData) :
    (PrepareAssets pd).covMatrix
      = (covWrites pd.length).foldl
          (fun M p => mwrite (mwrite M p.1 p.2 (covFOf pd p.1 p.2))
            p.2 p.1 (covFOf pd p.1 p.2))
          (fun _ _ => 0) := rfl

theorem covMatrix_entry (pd : List PriceData) (i j : ℕ) (hij : i ≤ j)
    (hj : j < pd.length) :
    (PrepareAssets pd).covMatrix i j = covFOf pd i j
    ∧ (PrepareAssets pd).covMatrix j i = covFOf pd i j := by
  obtain ⟨pre, post, hdec, hpost⟩ := covWrites_decomp pd.length i j hij hj
  rw [prepareAssets_covMatrix, hdec, List.foldl_append]
  exact covFold_value (covFOf pd) i j post _ hpost

theorem returns_length (prices : List ℝ) :
    (Returns prices).length = prices.length - 1 := by
  simp [Returns]

theorem covFOf_eq_sum (pd : List PriceData) (i j : ℕ) :
    covFOf pd i j
      = (∑ k ∈ Finset.range (minLenOf pd),
          (((returnMatrixOf pd).getD i []).getD k 0
            - mean ((returnMatrixOf pd).getD i []))
          * (((returnMatrixOf pd).getD j []).getD k 0
            - mean ((returnMatrixOf pd).getD j [])))
        / ((minLenOf pd : ℝ) - 1) * 252 := by
  unfold covFOf
  rw [foldl_add_eq_sum
    (fun k => (((returnMatrixOf pd).getD i []).getD k 0
        - mean ((returnMatrixOf pd).getD i []))
      * (((returnMatrixOf pd).getD j []).getD k 0
        - mean ((returnMatrixOf pd).getD j []))) 0 (minLenOf pd), zero_add]

theorem minLen_le (pd : List PriceData) :
    ∀ p ∈ pd, minLenOf pd ≤ (Returns p.closes).length := by
  intro p hp
  obtain ⟨-, -, h3⟩ := minLenFold_spec (allReturnsOf pd) 2147483647
  exact h3 (Returns p.closes) (List.mem_map_of_mem _ hp)

theorem minLen_mem (pd : List PriceData) (hne : pd ≠ [])
    (hcap : ∀ p ∈ pd, p.closes.length < 2 ^ 31) :
    ∃ p ∈ pd, (Returns p.closes).length = minLenOf pd := by
  obtain ⟨h1, -, h3⟩ := minLenFold_spec (allReturnsOf pd) 2147483647
  rcases h1 with h | ⟨r, hr, hres⟩
  · exfalso
    obtain ⟨p0, hp0⟩ := List.exists_mem_of_ne_nil pd hne
    have hle := h3 (Returns p0.closes) (List.mem_map_of_mem _ hp0)
    rw [h, returns_length] at hle
    have := hcap p0 hp0
    omega
  · obtain ⟨p, hp, rfl⟩ := List.mem_map.mp hr
    exact ⟨p, hp, (minLenOf_def pd ▸ hres).symm⟩

theorem returnMatrixOf_row (pd : List PriceData) (i : ℕ) (hi : i < pd.length) :
    (returnMatrixOf pd).getD i []
      = (Returns (pd.getD i default).closes).drop
          ((Returns (pd.getD i default).closes).length - minLenOf pd) := by
  unfold returnMatrixOf
  have h1 : i < (allReturnsOf pd).length := by simpa [allReturnsOf] using hi
  rw [getD_map_lt (fun r => r.drop (r.length - minLenOf pd)) _ i [] [] h1]
  unfold allReturnsOf
  rw [getD_map_lt (fun p => Returns p.closes) _ i [] default hi]

theorem returnMatrixOf_row_length (pd : List PriceData) (i : ℕ)
    (hi : i < pd.length) :
    ((returnMatrixOf pd).getD i []).length = minLenOf pd := by
  rw [returnMatrixOf_row pd i hi, List.length_drop]
  have hmem : pd.getD i default ∈ pd := by
    rw [List.getD_eq_getElem pd default hi]
    exact List.getElem_mem hi
  have := minLen_le pd _ hmem
  omega

end Frontier

namespace Frontier

/-- C5: for at least two price series (each of representable length, below
`2^31`), `PrepareAssets` truncates every return series to the
shortest return-series length `minLen` keeping the most recent observations
(a suffix), computes annualized means as arithmetic mean × 252, and builds a
covariance matrix whose entries are the sample covariance of the truncated
daily returns with divisor `minLen − 1` times 252; the matrix is exactly
symmetric and its diagonal is the daily variance × 252. -/
theorem prepareAssets_spec (priceData : List PriceData)
    (hn : 2 ≤ priceData.length)
    (hcap : ∀ p ∈ priceData, p.closes.length < 2 ^ 31) :
    ((∃ p ∈ priceData, (Returns p.closes).length = minLenOf priceData)
      ∧ (∀ p ∈ priceData, minLenOf priceData ≤ (Returns p.closes).length))
    ∧ (∀ i < priceData.length,
        ((PrepareAssets priceData).returnMatrix.getD i []).length
            = minLenOf priceData
        ∧ ((PrepareAssets priceData).returnMatrix.getD i [])
            <:+ Returns (priceData.getD i default).closes)
    ∧ (∀ i < priceData.length,
        (PrepareAssets priceData).meanReturns.getD i 0
          = (∑ k ∈ Finset.range (minLenOf priceData),
              ((PrepareAssets priceData).returnMatrix.getD i []).getD k 0)
            / (minLenOf priceData : ℝ) * 252)
    ∧ (∀ i < priceData.length, ∀ j < priceData.length,
        (PrepareAssets priceData).covMatrix i j
          = (∑ k ∈ Finset.range (minLenOf priceData),
              (((PrepareAssets priceData).returnMatrix.getD i []).getD k 0
                - mean ((PrepareAssets priceData).returnMatrix.getD i []))
              * (((PrepareAssets priceData).returnMatrix.getD j []).getD k 0
                - mean ((PrepareAssets priceData).returnMatrix.getD j [])))
            / ((minLenOf priceData : ℝ) - 1) * 252)
    ∧ (∀ x y : ℕ, (PrepareAssets priceData).covMatrix x y
        = (PrepareAssets priceData).covMatrix y x)
    ∧ (∀ i < priceData.length,
        (PrepareAssets priceData).covMatrix i i
          = (∑ k ∈ Finset.range (minLenOf priceData),
              (((PrepareAssets priceData).returnMatrix.getD i []).getD k 0
                - mean ((PrepareAssets priceData).returnMatrix.getD i []))
                ^ 2)
            / ((minLenOf priceData : ℝ) - 1) * 252) := by
  have hne : priceData ≠ [] := by
    intro h; rw [h] at hn; simp at hn
  have hcov : ∀ i < priceData.length, ∀ j < priceData.length,
      (PrepareAssets priceData).covMatrix i j
        = (∑ k ∈ Finset.range (minLenOf priceData),
            (((PrepareAssets priceData).returnMatrix.getD i []).getD k 0
              - mean ((PrepareAssets priceData).returnMatrix.getD i []))
            * (((PrepareAssets priceData).returnMatrix.getD j []).getD k 0
              - mean ((PrepareAssets priceData).returnMatrix.getD j [])))
          / ((minLenOf priceData : ℝ) - 1) * 252 := by
    intro i hi j hj
    rw [prepareAssets_returnMatrix]
    rcases le_total i j with hij | hji
    · rw [(covMatrix_entry priceData i j hij hj).1, covFOf_eq_sum]
    · rw [(covMatrix_entry priceData j i hji hi).2, covFOf_eq_sum]
      congr 1
      congr 1
      apply Finset.sum_congr rfl
      intro k _
      ring
  refine ⟨⟨minLen_mem priceData hne hcap, minLen_le priceData⟩, ?_, ?_, hcov, ?_, ?_⟩
  · intro i hi
    rw [prepareAssets_returnMatrix, returnMatrixOf_row priceData i hi]
    exact ⟨by
      rw [← returnMatrixOf_row priceData i hi]
      exact returnMatrixOf_row_length priceData i hi,
      List.drop_suffix _ _⟩
  · intro i hi
    rw [prepareAssets_meanReturns, prepareAssets_returnMatrix]
    have h1 : i < (returnMatrixOf priceData).length := by
      simpa [returnMatrixOf, allReturnsOf] using hi
    rw [getD_map_lt (fun r => mean r * 252) _ i 0 [] h1]
    rw [mean_eq_range_sum, returnMatrixOf_row_length priceData i hi]
  · intro x y
    rw [prepareAssets_covMatrix]
    exact covFold_symm _ (covWrites priceData.length) (fun _ _ => 0)
      (fun _ _ => rfl) x y
  · intro i hi
    rw [hcov i hi i hi]
    congr 1
    congr 1
    apply Finset.sum_congr rfl
    intro k _
    ring

end Frontier

namespace Frontier

/-- Concrete two-asset price data for the C5 witness. -/
noncomputable def pdW : List PriceData := [⟨"A", [1, 2]⟩, ⟨"B", [1, 3]⟩]

/-- Witness for C5: the hypotheses hold at a concrete two-asset input. -/
theorem prepareAssets_spec_witness :
    (2 ≤ pdW.length ∧ ∀ p ∈ pdW, p.closes.length < 2 ^ 31)
    ∧ (((∃ p ∈ pdW, (Returns p.closes).length = minLenOf pdW)
      ∧ (∀ p ∈ pdW, minLenOf pdW ≤ (Returns p.closes).length))
    ∧ (∀ i < pdW.length,
        ((PrepareAssets pdW).returnMatrix.getD i []).length = minLenOf pdW
        ∧ ((PrepareAssets pdW).returnMatrix.getD i [])
            <:+ Returns (pdW.getD i default).closes)
    ∧ (∀ i < pdW.length,
        (PrepareAssets pdW).meanReturns.getD i 0
          = (∑ k ∈ Finset.range (minLenOf pdW),
              ((PrepareAssets pdW).returnMatrix.getD i []).getD k 0)
            / (minLenOf pdW : ℝ) * 252)
    ∧ (∀ i < pdW.length, ∀ j < pdW.length,
        (PrepareAssets pdW).covMatrix i j
          = (∑ k ∈ Finset.range (minLenOf pdW),
              (((PrepareAssets pdW).returnMatrix.getD i []).getD k 0
                - mean ((PrepareAssets pdW).returnMatrix.getD i []))
              * (((PrepareAssets pdW).returnMatrix.getD j []).getD k 0
                - mean ((PrepareAssets pdW).returnMatrix.getD j [])))
            / ((minLenOf pdW : ℝ) - 1) * 252)
    ∧ (∀ x y : ℕ, (PrepareAssets pdW).covMatrix x y
        = (PrepareAssets pdW).covMatrix y x)
    ∧ (∀ i < pdW.length,
        (PrepareAssets pdW).covMatrix i i
          = (∑ k ∈ Finset.range (minLenOf pdW),
              (((PrepareAssets pdW).returnMatrix.getD i []).getD k 0
                - mean ((PrepareAssets pdW).returnMatrix.getD i [])) ^ 2)
            / ((minLenOf pdW : ℝ) - 1) * 252)) :=
  ⟨⟨by norm_num [pdW], by
      intro p hp
      simp only [pdW, List.mem_cons, List.not_mem_nil, or_false] at hp
      rcases hp with rfl | rfl <;> norm_num⟩,
    prepareAssets_spec pdW (by norm_num [pdW]) (by
      intro p hp
      simp only [pdW, List.mem_cons, List.not_mem_nil, or_false] at hp
      rcases hp with rfl | rfl <;> norm_num)⟩

end Frontier

namespace Frontier

/-! ### C7: the log-return round-trip law, and C8: totality of `Returns` -/

theorem returns_getD (prices : List ℝ) (i : ℕ) (hi : i < prices.length - 1) :
    (Returns prices).getD i 0
      = Real.log (prices.getD (i + 1) 0 / prices.getD i 0) := by
  unfold Returns
  have hr : (List.range (prices.length - 1)).getD i 0 = i := by
    rw [List.getD_eq_getElem _ 0 (by simpa using hi)]
    simp
  rw [getD_map_lt _ _ i 0 0 (by simpa using hi), hr]

/-- C7: for a price series of length ≥ 2 with strictly positive entries,
`Returns` has length `n − 1` with `r[i] = ln(price[i+1]/price[i])` by
definition, and cumulative exponentiation from the first price reconstructs
every price exactly (in real arithmetic). -/
theorem returns_roundtrip (prices : List ℝ) (hn : 2 ≤ prices.length)
    (hpos : ∀ p ∈ prices, 0 < p) :
    (Returns prices).length = prices.length - 1
    ∧ ∀ i < prices.length,
        prices.getD 0 0
            * Real.exp (∑ k ∈ Finset.range i, (Returns prices).getD k 0)
          = prices.getD i 0 := by
  refine ⟨returns_length prices, ?_⟩
  have hp : ∀ i, i < prices.length → 0 < prices.getD i 0 := by
    intro i hi
    rw [List.getD_eq_getElem _ 0 hi]
    exact hpos _ (List.getElem_mem hi)
  intro i
  induction i with
  | zero => intro _; simp
  | succ n ihn =>
      intro h
      have hn' : n < prices.length := Nat.lt_of_succ_lt h
      have hlt : n < prices.length - 1 := by omega
      rw [Finset.sum_range_succ, Real.exp_add, ← mul_assoc, ihn hn',
          returns_getD prices n hlt,
          Real.exp_log (div_pos (hp (n + 1) h) (hp n hn')),
          mul_comm, div_mul_cancel₀ _ (ne_of_gt (hp n hn'))]

/-- Concrete price series for the C7 witness. -/
noncomputable def pricesW : List ℝ := [1, 2, 4]

/-- Witness for C7 at the doubling price series `[1, 2, 4]`. -/
theorem returns_roundtrip_witness :
    (2 ≤ pricesW.length ∧ ∀ p ∈ pricesW, 0 < p)
    ∧ ((Returns pricesW).length = pricesW.length - 1
      ∧ ∀ i < pricesW.length,
          pricesW.getD 0 0
              * Real.exp (∑ k ∈ Finset.range i, (Returns pricesW).getD k 0)
            = pricesW.getD i 0) :=
  ⟨⟨by norm_num [pricesW], by
      intro p hp
      simp only [pricesW, List.mem_cons, List.not_mem_nil, or_false] at hp
      rcases hp with rfl | rfl | rfl <;> norm_num⟩,
    returns_roundtrip pricesW (by norm_num [pricesW]) (by
      intro p hp
      simp only [pricesW, List.mem_cons, List.not_mem_nil, or_false] at hp
      rcases hp with rfl | rfl | rfl <;> norm_num)⟩

/-- C8 (counterexample): `Returns` has no error path. With a single price it
returns the empty series rather than failing, and with a non-positive price
present it still returns an ordinary series of length `n − 1`; no
`InvalidInputError` value exists in the return-series builder. -/
theorem returns_no_error_counterexample :
    Returns [(1 : ℝ)] = [] ∧ (Returns [(-1 : ℝ), 1]).length = 1 := by
  constructor
  · simp [Returns]
  · rw [returns_length]
    norm_num

/-- C8 (amended): on every non-empty input, the return-series builder signals
no error: for a single-price input it yields the empty series rather than an
`InvalidInputError`, and in general the output length is `input length − 1`,
whatever the sign of the prices. (An empty input is outside this statement:
there the original `make([]float64, len(prices)-1)` aborts with a runtime
panic, not a surfaced error value.) The short-input and non-positive-price
validation lives in the price-fetching collaborator, not in `Returns`. -/
theorem returns_total_no_error :
    (∀ p : ℝ, Returns [p] = [])
    ∧ (∀ prices : List ℝ, prices ≠ [] →
        (Returns prices).length = prices.length - 1) := by
  constructor
  · intro p; simp [Returns]
  · intro prices _; exact returns_length prices

/-- Witness for C8's amended theorem at a concrete non-empty input containing
a non-positive price. -/
theorem returns_total_no_error_witness :
    ([(-1 : ℝ), 1] : List ℝ) ≠ []
    ∧ (Returns [(-1 : ℝ), 1]).length = ([(-1 : ℝ), 1] : List ℝ).length - 1 :=
  ⟨by simp, returns_total_no_error.2 [(-1 : ℝ), 1] (by simp)⟩

end Frontier
